import Mathlib

/-
Verification of the schema-rewriting pipeline of the OpenAPI-based Swift
package generator.

The document model is the JSON/YAML tree the transformers operate on:
ordered mappings (association lists of string keys, insertion order
preserved, as in Python dicts), sequences, and scalars.  The transformer
functions are shallow embeddings of the Python sources in
src/bootstrapper/transformers/; fallible operations (Python exceptions:
TypeError for unhashable keys or bad subscripts, AttributeError for
missing methods, KeyError for missing keys) are modelled in an Except
monad.
-/

inductive JSON where
  | str (v : String)
  | num (v : Int)
  | bool (v : Bool)
  | null
  | arr (xs : List JSON)
  | obj (kvs : List (String × JSON))
  deriving Repr

mutual
def jbeq : JSON → JSON → Bool
  | .str a, .str b => a == b
  | .num a, .num b => a == b
  | .bool a, .bool b => a == b
  | .null, .null => true
  | .arr xs, .arr ys => jbeqList xs ys
  | .obj xs, .obj ys => jbeqKVs xs ys
  | _, _ => false

def jbeqList : List JSON → List JSON → Bool
  | [], [] => true
  | x :: xs, y :: ys => jbeq x y && jbeqList xs ys
  | _, _ => false

def jbeqKVs : List (String × JSON) → List (String × JSON) → Bool
  | [], [] => true
  | (k1, v1) :: xs, (k2, v2) :: ys => k1 == k2 && jbeq v1 v2 && jbeqKVs xs ys
  | _, _ => false
end

mutual
theorem jbeq_iff : ∀ a b, jbeq a b = true ↔ a = b
  | .str a, .str b => by simp [jbeq]
  | .num a, .num b => by simp [jbeq]
  | .bool a, .bool b => by simp [jbeq]
  | .null, .null => by simp [jbeq]
  | .arr xs, .arr ys => by simp [jbeq, jbeqList_iff xs ys]
  | .obj xs, .obj ys => by simp [jbeq, jbeqKVs_iff xs ys]
  | .str _, .num _ => by simp [jbeq]
  | .str _, .bool _ => by simp [jbeq]
  | .str _, .null => by simp [jbeq]
  | .str _, .arr _ => by simp [jbeq]
  | .str _, .obj _ => by simp [jbeq]
  | .num _, .str _ => by simp [jbeq]
  | .num _, .bool _ => by simp [jbeq]
  | .num _, .null => by simp [jbeq]
  | .num _, .arr _ => by simp [jbeq]
  | .num _, .obj _ => by simp [jbeq]
  | .bool _, .str _ => by simp [jbeq]
  | .bool _, .num _ => by simp [jbeq]
  | .bool _, .null => by simp [jbeq]
  | .bool _, .arr _ => by simp [jbeq]
  | .bool _, .obj _ => by simp [jbeq]
  | .null, .str _ => by simp [jbeq]
  | .null, .num _ => by simp [jbeq]
  | .null, .bool _ => by simp [jbeq]
  | .null, .arr _ => by simp [jbeq]
  | .null, .obj _ => by simp [jbeq]
  | .arr _, .str _ => by simp [jbeq]
  | .arr _, .num _ => by simp [jbeq]
  | .arr _, .bool _ => by simp [jbeq]
  | .arr _, .null => by simp [jbeq]
  | .arr _, .obj _ => by simp [jbeq]
  | .obj _, .str _ => by simp [jbeq]
  | .obj _, .num _ => by simp [jbeq]
  | .obj _, .bool _ => by simp [jbeq]
  | .obj _, .null => by simp [jbeq]
  | .obj _, .arr _ => by simp [jbeq]

theorem jbeqList_iff : ∀ xs ys, jbeqList xs ys = true ↔ xs = ys
  | [], [] => by simp [jbeqList]
  | x :: xs, y :: ys => by
      simp [jbeqList, jbeq_iff x y, jbeqList_iff xs ys]
  | [], _ :: _ => by simp [jbeqList]
  | _ :: _, [] => by simp [jbeqList]

theorem jbeqKVs_iff : ∀ xs ys, jbeqKVs xs ys = true ↔ xs = ys
  | [], [] => by simp [jbeqKVs]
  | (k1, v1) :: xs, (k2, v2) :: ys => by
      simp [jbeqKVs, jbeq_iff v1 v2, jbeqKVs_iff xs ys, and_assoc]
  | [], _ :: _ => by simp [jbeqKVs]
  | _ :: _, [] => by simp [jbeqKVs]
end

instance : DecidableEq JSON := fun a b => decidable_of_iff _ (jbeq_iff a b)

instance : BEq JSON := ⟨jbeq⟩

instance : LawfulBEq JSON where
  eq_of_beq h := (jbeq_iff _ _).mp h
  rfl := (jbeq_iff _ _).mpr rfl

-- Size of a tree, used as the termination measure of the tree walker.
mutual
def jsize : JSON → Nat
  | .arr xs => 1 + jsizeList xs
  | .obj kvs => 1 + jsizeKVs kvs
  | _ => 1

def jsizeList : List JSON → Nat
  | [] => 0
  | x :: xs => 1 + jsize x + jsizeList xs

def jsizeKVs : List (String × JSON) → Nat
  | [] => 0
  | (_, v) :: kvs => 1 + jsize v + jsizeKVs kvs
end

theorem jsize_pos (j : JSON) : 1 ≤ jsize j := by
  cases j <;> simp [jsize]

/-- Modelled Python exceptions raised by the transformer code. -/
inductive PyErr where
  | typeError
  | attrError
  | keyError
  deriving DecidableEq, Repr

instance : DecidableEq (Except PyErr JSON) :=
  fun a b =>
    match a, b with
    | .error x, .error y =>
        match decEq x y with
        | isTrue h => isTrue (by rw [h])
        | isFalse h => isFalse (by intro hc; cases hc; exact h rfl)
    | .ok x, .ok y =>
        match decEq x y with
        | isTrue h => isTrue (by rw [h])
        | isFalse h => isFalse (by intro hc; cases hc; exact h rfl)
    | .error _, .ok _ => isFalse (by intro hc; cases hc)
    | .ok _, .error _ => isFalse (by intro hc; cases hc)

/-- Python dict lookup `d[k]` / `d.get(k)` on an ordered mapping. -/
def dget : List (String × JSON) → String → Option JSON
  | [], _ => none
  | (k, v) :: kvs, key => if k = key then some v else dget kvs key

/-- Python `k in d` for a string key. -/
def dmem (kvs : List (String × JSON)) (key : String) : Bool :=
  (dget kvs key).isSome

/-- Python `d.get(k, default)`. -/
def dgetD (kvs : List (String × JSON)) (key : String) (dflt : JSON) : JSON :=
  (dget kvs key).getD dflt

/-- Python `d[k] = v`: replace in place if the key exists, else append. -/
def dset : List (String × JSON) → String → JSON → List (String × JSON)
  | [], key, v => [(key, v)]
  | (k, w) :: kvs, key, v =>
      if k = key then (k, v) :: kvs else (k, w) :: dset kvs key v

/-- Python `del d[k]` (the key is unique in an actual Python dict). -/
def ddel : List (String × JSON) → String → List (String × JSON)
  | [], _ => []
  | (k, w) :: kvs, key => if k = key then kvs else (k, w) :: ddel kvs key

/-- Substring test, Python `pat in s` for strings. -/
def subStr (pat s : String) : Bool :=
  s.data.tails.any (fun t => pat.data.isPrefixOf t)

/-- Python `key in x` where `x` is an arbitrary value: key membership for a
dict, element membership for a list, substring test for a string, and a
TypeError for non-container scalars. -/
def pyContains (j : JSON) (key : String) : Except PyErr Bool :=
  match j with
  | .obj kvs => .ok (dmem kvs key)
  | .arr xs => .ok (xs.contains (.str key))
  | .str s => .ok (subStr key s)
  | _ => .error .typeError

/-- Python `x[key]` for a string key: dict lookup (KeyError when absent),
TypeError for lists, strings and scalars. -/
def pySubscript (j : JSON) (key : String) : Except PyErr JSON :=
  match j with
  | .obj kvs =>
      match dget kvs key with
      | some v => .ok v
      | none => .error .keyError
  | _ => .error .typeError

/-- A per-node transform function never enlarges the tree on success.  Every
transformer in the pipeline satisfies this; it bounds the recursion of the
walker, which recurses into the children of the transformed node. -/
def SizeNI (f : JSON → Except PyErr JSON) : Prop :=
  ∀ j r, f j = .ok r → jsize r ≤ jsize j

-- Embedding of recursive_walk (ops_base.py): apply the transform to the
-- node first, then recurse into the children of the (possibly replaced)
-- result, reassigning each child in place; scalars are returned as-is.
-- A Python exception anywhere aborts the whole walk.
mutual
def recursive_walk (f : JSON → Except PyErr JSON) (hf : SizeNI f) (j : JSON) :
    Except PyErr JSON :=
  match h : f j with
  | .error e => .error e
  | .ok (.obj kvs) =>
      have hlt : jsizeKVs kvs < jsize j := by
        have hle := hf j (.obj kvs) h
        simp [jsize] at hle
        omega
      (walkKVs f hf kvs).map JSON.obj
  | .ok (.arr xs) =>
      have hlt : jsizeList xs < jsize j := by
        have hle := hf j (.arr xs) h
        simp [jsize] at hle
        omega
      (walkList f hf xs).map JSON.arr
  | .ok (.str s) => .ok (.str s)
  | .ok (.num n) => .ok (.num n)
  | .ok (.bool b) => .ok (.bool b)
  | .ok .null => .ok .null
termination_by jsize j
decreasing_by
  · exact hlt
  · exact hlt

def walkKVs (f : JSON → Except PyErr JSON) (hf : SizeNI f) :
    List (String × JSON) → Except PyErr (List (String × JSON))
  | [] => .ok []
  | (k, v) :: rest =>
      match recursive_walk f hf v with
      | .error e => .error e
      | .ok w =>
          match walkKVs f hf rest with
          | .error e => .error e
          | .ok ws => .ok ((k, w) :: ws)
termination_by kvs => jsizeKVs kvs
decreasing_by
  · simp only [jsizeKVs]; omega
  · simp only [jsizeKVs]; omega

def walkList (f : JSON → Except PyErr JSON) (hf : SizeNI f) :
    List JSON → Except PyErr (List JSON)
  | [] => .ok []
  | x :: rest =>
      match recursive_walk f hf x with
      | .error e => .error e
      | .ok w =>
          match walkList f hf rest with
          | .error e => .error e
          | .ok ws => .ok (w :: ws)
termination_by xs => jsizeList xs
decreasing_by
  · simp only [jsizeList]; omega
  · simp only [jsizeList]; omega
end

theorem recursive_walk_eq (f : JSON → Except PyErr JSON) (hf : SizeNI f)
    (j : JSON) :
    recursive_walk f hf j =
      match f j with
      | .error e => .error e
      | .ok (.obj kvs) => (walkKVs f hf kvs).map JSON.obj
      | .ok (.arr xs) => (walkList f hf xs).map JSON.arr
      | .ok (.str s) => .ok (.str s)
      | .ok (.num n) => .ok (.num n)
      | .ok (.bool b) => .ok (.bool b)
      | .ok .null => .ok .null := by
  rw [recursive_walk.eq_def]
  split <;> rename_i h <;> (conv_rhs => rw [h])

theorem jsizeList_filter_le (p : JSON → Bool) (xs : List JSON) :
    jsizeList (xs.filter p) ≤ jsizeList xs := by
  induction xs with
  | nil => simp [jsizeList]
  | cons x xs ih =>
      by_cases h : p x <;> simp [List.filter_cons, h, jsizeList] <;> omega

theorem jsize_mem_le {x : JSON} {xs : List JSON} (h : x ∈ xs) :
    1 + jsize x ≤ jsizeList xs := by
  induction xs with
  | nil => simp at h
  | cons y ys ih =>
      rcases List.mem_cons.mp h with rfl | h2
      · simp only [jsizeList]; omega
      · have := ih h2
        simp only [jsizeList]
        omega

theorem jsizeKVs_filter_le (p : String × JSON → Bool)
    (kvs : List (String × JSON)) :
    jsizeKVs (kvs.filter p) ≤ jsizeKVs kvs := by
  induction kvs with
  | nil => simp [jsizeKVs]
  | cons kv kvs ih =>
      cases kv with
      | mk k v =>
          by_cases h : p (k, v) <;>
            simp [List.filter_cons, h, jsizeKVs] <;> omega

/-- The entries of a mapping other than those with key `k`. -/
def dOthers (kvs : List (String × JSON)) (k : String) :
    List (String × JSON) :=
  kvs.filter (fun kv => kv.1 ≠ k)

theorem dOthers_cons (k1 : String) (v1 : JSON) (kvs : List (String × JSON))
    (k : String) :
    dOthers ((k1, v1) :: kvs) k =
      if k1 = k then dOthers kvs k else (k1, v1) :: dOthers kvs k := by
  by_cases h : k1 = k <;> simp [dOthers, List.filter_cons, h]

theorem jsizeKVs_dOthers_le (kvs : List (String × JSON)) (k : String) :
    jsizeKVs (dOthers kvs k) ≤ jsizeKVs kvs :=
  jsizeKVs_filter_le _ kvs

theorem jsizeKVs_ddel_le (kvs : List (String × JSON)) (k : String) :
    jsizeKVs (ddel kvs k) ≤ jsizeKVs kvs := by
  induction kvs with
  | nil => simp [ddel]
  | cons kv kvs ih =>
      cases kv with
      | mk k1 v1 =>
          by_cases h : k1 = k <;>
            simp only [ddel, h, if_true, if_false, jsizeKVs] <;> omega

theorem jsizeKVs_dset_replace_le {kvs : List (String × JSON)} {k : String}
    {w v : JSON} (hget : dget kvs k = some w) (hle : jsize v ≤ jsize w) :
    jsizeKVs (dset kvs k v) ≤ jsizeKVs kvs := by
  induction kvs with
  | nil => simp [dget] at hget
  | cons kv kvs ih =>
      cases kv with
      | mk k1 v1 =>
          by_cases h : k1 = k
          · subst h
            simp [dget] at hget
            subst hget
            simp only [dset, if_true, jsizeKVs]
            omega
          · simp [dget, h] at hget
            have := ih hget
            simp only [dset, h, if_false, jsizeKVs]
            omega

theorem jsizeKVs_dset_append {kvs : List (String × JSON)} {k : String}
    {v : JSON} (h : dmem kvs k = false) :
    jsizeKVs (dset kvs k v) = jsizeKVs kvs + 1 + jsize v := by
  induction kvs with
  | nil => simp [dset, jsizeKVs]
  | cons kv kvs ih =>
      cases kv with
      | mk k1 v1 =>
          by_cases hk : k1 = k
          · subst hk
            simp [dmem, dget] at h
          · simp only [dmem, dget, hk, if_false] at h
            have := ih (by simp [dmem, h])
            simp only [dset, hk, if_false, jsizeKVs, this]
            omega

theorem jsizeKVs_getentry {kvs : List (String × JSON)} {k : String} {w : JSON}
    (h : dget kvs k = some w) :
    jsizeKVs (dOthers kvs k) + 1 + jsize w ≤ jsizeKVs kvs := by
  induction kvs with
  | nil => simp [dget] at h
  | cons kv kvs ih =>
      cases kv with
      | mk k1 v1 =>
          by_cases hk : k1 = k
          · subst hk
            simp [dget] at h
            subst h
            rw [dOthers_cons]
            simp only [if_true, jsizeKVs]
            have := jsizeKVs_dOthers_le kvs k1
            omega
          · simp only [dget, hk, if_false] at h
            have := ih h
            rw [dOthers_cons]
            simp only [hk, if_false, jsizeKVs]
            omega

-- =====================================================================
-- op1_null_anyof.py: remove null from anyOf and oneOf arrays
-- =====================================================================

/-- `isinstance(item, dict) and item.get("type") == "null"`: the member
schemas removed from `anyOf`/`oneOf` sequences. -/
def isNullTypeDict (item : JSON) : Bool :=
  match item with
  | .obj kvs => if dget kvs "type" = some (.str "null") then true else false
  | _ => false

/-- The sibling-merging loop of the unwrap branch of
`_process_nullable_array`: for every entry of `data` whose key differs from
the union key and is not yet present on the unwrapped schema, append it. -/
def mergeSiblings (unwrapped : List (String × JSON))
    (data : List (String × JSON)) (key : String) : List (String × JSON) :=
  data.foldl
    (fun acc kv =>
      if kv.1 ≠ key ∧ dmem acc kv.1 = false then dset acc kv.1 kv.2 else acc)
    unwrapped

/-- `if "default" in d and d["default"] is None: del d["default"]`. -/
def stripNullDefault (kvs : List (String × JSON)) : List (String × JSON) :=
  if dget kvs "default" = some .null then ddel kvs "default" else kvs

/-- Embedding of `_process_nullable_array(data, key)` (op1_null_anyof.py).
`data` is subscripted with `key` (a TypeError on non-dicts, mirroring
`data[key]`); a non-list value is returned unchanged; otherwise the
`{type: "null"}` members are filtered out and the zero/one/many cases are
handled.  In the unwrap branch, `filtered[0].copy()` raises AttributeError
on a scalar member and the `unwrapped[k] = v` sibling assignment raises
TypeError on a list member. -/
def process_nullable_array (data : JSON) (key : String) :
    Except PyErr JSON :=
  match data with
  | .obj kvs =>
      match dget kvs key with
      | none => .error .keyError
      | some (.arr xs) =>
          let filtered := xs.filter (fun item => !isNullTypeDict item)
          if filtered.length = xs.length then .ok (.obj kvs)
          else
            match filtered with
            | [] => .ok (.obj [("type", .str "null")])
            | [single] =>
                match single with
                | .obj skvs =>
                    .ok (.obj (stripNullDefault (mergeSiblings skvs kvs key)))
                | .arr elems =>
                    if kvs.any
                        (fun kv =>
                          kv.1 ≠ key ∧ (elems.contains (.str kv.1) = false))
                      then .error .typeError
                    else if elems.contains (.str "default") then
                      .error .typeError
                    else .ok (.arr elems)
                | _ => .error .attrError
            | _ =>
                .ok (.obj (stripNullDefault (dset kvs key (.arr filtered))))
      | some _ => .ok (.obj kvs)
  | _ => .error .typeError

/-- Embedding of `_transform_node` (op1_null_anyof.py): process `anyOf` if
present, then check `oneOf` on the (possibly replaced) result and process
it too; non-dict nodes pass through. -/
def transform_node_op1 (j : JSON) : Except PyErr JSON :=
  match j with
  | .obj kvs => do
      let d1 ←
        if dmem kvs "anyOf" then process_nullable_array (.obj kvs) "anyOf"
        else pure (.obj kvs)
      let c ← pyContains d1 "oneOf"
      if c then process_nullable_array d1 "oneOf" else pure d1
  | other => .ok other

theorem stripNullDefault_le (kvs : List (String × JSON)) :
    jsizeKVs (stripNullDefault kvs) ≤ jsizeKVs kvs := by
  unfold stripNullDefault
  split
  · exact jsizeKVs_ddel_le kvs "default"
  · exact le_refl _

theorem mergeSiblings_le (kvs : List (String × JSON)) (key : String) :
    ∀ init, jsizeKVs (mergeSiblings init kvs key) ≤
      jsizeKVs init + jsizeKVs (dOthers kvs key) := by
  induction kvs with
  | nil => intro init; simp [mergeSiblings, dOthers, jsizeKVs]
  | cons kv kvs ih =>
      intro init
      cases kv with
      | mk k v =>
          have hstep : mergeSiblings init ((k, v) :: kvs) key =
              mergeSiblings
                (if k ≠ key ∧ dmem init k = false then dset init k v else init)
                kvs key := by
            simp [mergeSiblings, List.foldl_cons]
          rw [hstep, dOthers_cons]
          by_cases hk : k = key
          · simp only [hk, if_true]
            have : (¬ (key ≠ key) ∨ ¬ (dmem init key = false)) := by tauto
            rcases Decidable.em (dmem init key = false) with hm | hm
            · simp only [ne_eq, not_true_eq_false, false_and, if_false]
              exact ih init
            · simp only [ne_eq, not_true_eq_false, false_and, if_false]
              exact ih init
          · simp only [hk, if_false]
            by_cases hm : dmem init k = false
            · have happ : jsizeKVs (dset init k v) =
                  jsizeKVs init + 1 + jsize v := jsizeKVs_dset_append hm
              simp only [ne_eq, hk, not_false_eq_true, true_and, hm, if_true]
              have := ih (dset init k v)
              simp only [jsizeKVs]
              omega
            · have hm2 : dmem init k = true := by
                revert hm; cases dmem init k <;> simp
              rw [if_neg (by simp [hm2])]
              have := ih init
              simp only [jsizeKVs]
              omega

theorem jsize_dget_le {kvs : List (String × JSON)} {k : String} {w : JSON}
    (h : dget kvs k = some w) : 1 + jsize w ≤ jsizeKVs kvs := by
  have := jsizeKVs_getentry h
  omega

theorem process_nullable_array_le {data : JSON} {key : String} {r : JSON}
    (h : process_nullable_array data key = .ok r) : jsize r ≤ jsize data := by
  cases data with
  | obj kvs =>
      simp only [process_nullable_array] at h
      cases hget : dget kvs key with
      | none => rw [hget] at h; exact absurd h (by simp)
      | some v =>
          rw [hget] at h
          cases v with
          | arr xs =>
              by_cases hlen :
                  (xs.filter (fun item => !isNullTypeDict item)).length =
                    xs.length
              · simp only [hlen, if_true] at h
                cases h
                exact le_refl _
              · simp only [hlen, if_false] at h
                cases hf : xs.filter (fun item => !isNullTypeDict item) with
                | nil =>
                    rw [hf] at h
                    simp only [] at h
                    cases h
                    have hxs : xs ≠ [] := by
                      intro hx
                      subst hx
                      simp at hf hlen
                    cases xs with
                    | nil => exact absurd rfl hxs
                    | cons y ys =>
                        have h1 := jsize_pos y
                        have h2 := jsize_dget_le hget
                        simp only [jsize, jsizeList, jsizeKVs] at *
                        omega
                | cons single rest =>
                    cases rest with
                    | nil =>
                        rw [hf] at h
                        have hmem : single ∈ xs := by
                          have : single ∈ xs.filter
                              (fun item => !isNullTypeDict item) := by
                            rw [hf]; exact List.mem_singleton.mpr rfl
                          exact List.mem_of_mem_filter this
                        have hsx := jsize_mem_le hmem
                        have hkv := jsize_dget_le hget
                        have hoth := jsizeKVs_getentry hget
                        cases single with
                        | obj skvs =>
                            simp only [] at h
                            cases h
                            have hm := mergeSiblings_le kvs key skvs
                            have hs :=
                              stripNullDefault_le (mergeSiblings skvs kvs key)
                            simp only [jsize] at *
                            omega
                        | arr elems =>
                            simp only [] at h
                            by_cases hany : kvs.any
                                (fun kv => kv.1 ≠ key ∧
                                  (elems.contains (.str kv.1) = false))
                            · rw [if_pos hany] at h
                              exact absurd h (by simp)
                            · rw [if_neg hany] at h
                              by_cases hdef : elems.contains (.str "default")
                              · rw [if_pos hdef] at h
                                exact absurd h (by simp)
                              · rw [if_neg hdef] at h
                                cases h
                                simp only [jsize] at *
                                omega
                        | str s => exact absurd h (by simp)
                        | num n => exact absurd h (by simp)
                        | bool b => exact absurd h (by simp)
                        | null => exact absurd h (by simp)
                    | cons r2 rest2 =>
                        rw [hf] at h
                        simp only [] at h
                        cases h
                        have hfle := jsizeList_filter_le
                          (fun item => !isNullTypeDict item) xs
                        have hrep : jsizeKVs
                            (dset kvs key (.arr (single :: r2 :: rest2))) ≤
                              jsizeKVs kvs := by
                          apply jsizeKVs_dset_replace_le hget
                          simp only [jsize]
                          rw [← hf]
                          omega
                        have hs := stripNullDefault_le
                          (dset kvs key (.arr (single :: r2 :: rest2)))
                        simp only [jsize] at *
                        omega
          | str s => simp only [] at h; cases h; exact le_refl _
          | num n => simp only [] at h; cases h; exact le_refl _
          | bool b => simp only [] at h; cases h; exact le_refl _
          | null => simp only [] at h; cases h; exact le_refl _
          | obj o => simp only [] at h; cases h; exact le_refl _
  | str s => exact absurd h (by simp [process_nullable_array])
  | num n => exact absurd h (by simp [process_nullable_array])
  | bool b => exact absurd h (by simp [process_nullable_array])
  | null => exact absurd h (by simp [process_nullable_array])
  | arr xs => exact absurd h (by simp [process_nullable_array])

theorem exceptBind_ok {α β : Type} {x : Except PyErr α}
    {f : α → Except PyErr β} {r : β} (h : (x >>= f) = .ok r) :
    ∃ a, x = .ok a ∧ f a = .ok r := by
  cases x with
  | error e => simp [Bind.bind, Except.bind] at h
  | ok a => exact ⟨a, rfl, by simpa [Bind.bind, Except.bind] using h⟩

theorem op1_tail_le {d1 r : JSON}
    (h : (pyContains d1 "oneOf" >>= fun c =>
        if c = true then process_nullable_array d1 "oneOf" else pure d1) =
      .ok r) :
    jsize r ≤ jsize d1 := by
  obtain ⟨c, hc, h3⟩ := exceptBind_ok h
  cases c with
  | true =>
      simp only [if_true] at h3
      exact process_nullable_array_le h3
  | false =>
      rw [if_neg Bool.false_ne_true] at h3
      simp only [pure, Except.pure, Except.ok.injEq] at h3
      subst h3
      exact le_refl _

theorem transform_node_op1_ni : SizeNI transform_node_op1 := by
  intro j r h
  cases j with
  | obj kvs =>
      simp only [transform_node_op1] at h
      by_cases hm : dmem kvs "anyOf" = true
      · rw [if_pos hm] at h
        obtain ⟨d1, hd1, h2⟩ := exceptBind_ok h
        have hle1 := process_nullable_array_le hd1
        exact le_trans (op1_tail_le h2) hle1
      · rw [if_neg hm] at h
        obtain ⟨d1, hd1, h2⟩ := exceptBind_ok h
        simp only [pure, Except.pure, Except.ok.injEq] at hd1
        subst hd1
        exact op1_tail_le h2
  | str s => cases h; exact le_refl _
  | num n => cases h; exact le_refl _
  | bool b => cases h; exact le_refl _
  | null => cases h; exact le_refl _
  | arr xs => cases h; exact le_refl _

/-- Embedding of `remove_null_anyof` (op1_null_anyof.py): walk the whole
document applying the null-union transform at every node. -/
def remove_null_anyof (spec : JSON) : Except PyErr JSON :=
  recursive_walk transform_node_op1 transform_node_op1_ni spec

theorem dget_dset_self (kvs : List (String × JSON)) (k : String) (v : JSON) :
    dget (dset kvs k v) k = some v := by
  induction kvs with
  | nil => simp [dset, dget]
  | cons kv kvs ih =>
      cases kv with
      | mk k1 v1 =>
          by_cases h : k1 = k
          · subst h; simp [dset, dget]
          · simp [dset, dget, h, ih]

theorem dget_dset_ne (kvs : List (String × JSON)) {k k2 : String} (v : JSON)
    (h : k2 ≠ k) : dget (dset kvs k v) k2 = dget kvs k2 := by
  induction kvs with
  | nil => simp [dset, dget, Ne.symm h]
  | cons kv kvs ih =>
      cases kv with
      | mk k1 v1 =>
          by_cases h1 : k1 = k
          · subst h1
            simp [dset, dget, Ne.symm h]
          · simp [dset, dget, h1, ih]

theorem dget_ddel_ne (kvs : List (String × JSON)) {k k2 : String}
    (h : k2 ≠ k) : dget (ddel kvs k) k2 = dget kvs k2 := by
  induction kvs with
  | nil => simp [ddel]
  | cons kv kvs ih =>
      cases kv with
      | mk k1 v1 =>
          by_cases h1 : k1 = k
          · subst h1
            simp [ddel, dget, Ne.symm h]
          · simp [ddel, dget, h1, ih]

/-- Keys of a Python dict are unique; the embedding carries this as a
hypothesis where a claim needs it. -/
def NodupKeys (kvs : List (String × JSON)) : Prop :=
  (kvs.map Prod.fst).Nodup

instance (kvs : List (String × JSON)) : Decidable (NodupKeys kvs) := by
  unfold NodupKeys
  infer_instance

theorem dget_notmem {kvs : List (String × JSON)} {k : String}
    (h : k ∉ kvs.map Prod.fst) : dget kvs k = none := by
  induction kvs with
  | nil => simp [dget]
  | cons kv kvs ih =>
      cases kv with
      | mk k1 v1 =>
          simp only [List.map_cons, List.mem_cons] at h
          push_neg at h
          simp [dget, Ne.symm h.1, ih h.2]

theorem dget_ddel_self {kvs : List (String × JSON)} (k : String)
    (h : NodupKeys kvs) : dget (ddel kvs k) k = none := by
  induction kvs with
  | nil => simp [ddel, dget]
  | cons kv kvs ih =>
      cases kv with
      | mk k1 v1 =>
          have h2 : (k1 :: kvs.map Prod.fst).Nodup := by
            simpa [NodupKeys] using h
          rcases List.nodup_cons.mp h2 with ⟨hk1, hrest⟩
          by_cases h1 : k1 = k
          · subst h1
            simpa [ddel] using dget_notmem hk1
          · simp [ddel, dget, h1, ih hrest]

theorem mem_keys_ddel {kvs : List (String × JSON)} {k s : String}
    (h : s ∈ (ddel kvs k).map Prod.fst) : s ∈ kvs.map Prod.fst := by
  induction kvs with
  | nil => simp [ddel] at h
  | cons kv kvs ih =>
      cases kv with
      | mk k1 v1 =>
          by_cases h1 : k1 = k
          · subst h1
            simp only [ddel, if_true] at h
            simp [h]
          · simp only [ddel, h1, if_false, List.map_cons,
              List.mem_cons] at h
            rcases h with h | h
            · simp [h]
            · simp [ih h]

theorem nodupKeys_ddel {kvs : List (String × JSON)} (k : String)
    (h : NodupKeys kvs) : NodupKeys (ddel kvs k) := by
  induction kvs with
  | nil => simp [ddel, NodupKeys]
  | cons kv kvs ih =>
      cases kv with
      | mk k1 v1 =>
          have h2 : (k1 :: kvs.map Prod.fst).Nodup := by
            simpa [NodupKeys] using h
          rcases List.nodup_cons.mp h2 with ⟨hk1, hrest⟩
          by_cases h1 : k1 = k
          · subst h1
            simpa [ddel] using hrest
          · simp only [NodupKeys, ddel, h1, if_false, List.map_cons]
            refine List.nodup_cons.mpr ⟨?_, ih hrest⟩
            intro hc
            exact hk1 (mem_keys_ddel hc)

-- =====================================================================
-- Claim inputs and predicates for op1 (C1, C2, C6)
-- =====================================================================

-- Whether a tree still contains an anyOf/oneOf sequence with a
-- {type: "null"} member (the condition one remove_null_anyof pass is
-- claimed to eliminate everywhere).
def nodeHasNullUnion (kvs : List (String × JSON)) : Bool :=
  (match dget kvs "anyOf" with
    | some (.arr xs) => xs.any isNullTypeDict
    | _ => false) ||
  (match dget kvs "oneOf" with
    | some (.arr xs) => xs.any isNullTypeDict
    | _ => false)

mutual
def hasNullUnion : JSON → Bool
  | .obj kvs => nodeHasNullUnion kvs || hasNullUnionKVs kvs
  | .arr xs => hasNullUnionList xs
  | _ => false

def hasNullUnionList : List JSON → Bool
  | [] => false
  | x :: xs => hasNullUnion x || hasNullUnionList xs

def hasNullUnionKVs : List (String × JSON) → Bool
  | [] => false
  | (_, v) :: kvs => hasNullUnion v || hasNullUnionKVs kvs
end

/-- A document whose `oneOf` has a null member and a member that is itself
a null-union: the unwrap replaces the node by that member, and the walker
never re-applies the transform to the replacement node itself. -/
def c1_doc : JSON :=
  .obj [("oneOf", .arr [.obj [("type", .str "null")],
    .obj [("oneOf", .arr [.obj [("type", .str "null")],
      .obj [("type", .str "string")]])]])]

def c1_once : JSON :=
  .obj [("oneOf", .arr [.obj [("type", .str "null")],
    .obj [("type", .str "string")]])]

/-- Same shape through `anyOf`. -/
def c2_doc : JSON :=
  .obj [("anyOf", .arr [.obj [("type", .str "null")],
    .obj [("anyOf", .arr [.obj [("type", .str "null")],
      .obj [("type", .str "string")]])]])]

def c2_once : JSON :=
  .obj [("anyOf", .arr [.obj [("type", .str "null")],
    .obj [("type", .str "string")]])]

/-- C1 (code bug): the null-union unwrapping transformer is not idempotent.
On a document whose `oneOf` contains a `{type: "null"}` member next to a
member that is itself a null-union, the first pass unwraps to that member
but never re-processes the replacement node, so a second pass changes the
tree again: `T(T(D)) ≠ T(D)`. -/
theorem c1_remove_null_anyof_not_idempotent :
    remove_null_anyof c1_doc = .ok c1_once ∧
    remove_null_anyof c1_once = .ok (.obj [("type", .str "string")]) ∧
    (Except.ok (JSON.obj [("type", .str "string")]) : Except PyErr JSON) ≠
      .ok c1_once := by
  refine ⟨?_, ?_, by decide⟩ <;>
    simp [remove_null_anyof, recursive_walk_eq, walkKVs, walkList,
      transform_node_op1, process_nullable_array, mergeSiblings,
      stripNullDefault, isNullTypeDict, dmem, dget, dset, ddel, pyContains,
      Except.map, List.filter_cons, subStr, bind, Except.bind, pure,
      Except.pure, c1_doc, c1_once]

/-- C2 (code bug): a single `remove_null_anyof` pass does not eliminate
every `{type: "null"}` union member.  When the unwrap branch replaces a
node by a member that itself carries a null-union, the walker recurses only
into the replacement's children, not the replacement itself, so its
top-level `anyOf` keeps the null member after one pass. -/
theorem c2_single_pass_leaves_null_member :
    remove_null_anyof c2_doc = .ok c2_once ∧ hasNullUnion c2_once = true := by
  refine ⟨?_, by decide⟩
  simp [remove_null_anyof, recursive_walk_eq, walkKVs, walkList,
    transform_node_op1, process_nullable_array, mergeSiblings,
    stripNullDefault, isNullTypeDict, dmem, dget, dset, ddel, pyContains,
    Except.map, List.filter_cons, subStr, bind, Except.bind, pure,
    Except.pure, c2_doc, c2_once]

/-- Python lists and dicts are unhashable: using one as a dict-membership
probe (`key in properties`) raises TypeError. -/
def isUnhashable (j : JSON) : Bool :=
  match j with
  | .arr _ => true
  | .obj _ => true
  | _ => false

/-- Python `key in properties` for a hashable `key`: only a string can
match a (string) property name. -/
def isKeyOf (props : List (String × JSON)) (e : JSON) : Bool :=
  match e with
  | .str s => dmem props s
  | _ => false

/-- Embedding of `_transform_node` (op6_clean_required.py): on a node with
both `properties` (a dict) and `required` (a list), keep only the required
names present among the property keys (in order), dropping the key when
the filtered list is empty; on a node with `required` (a list) but no
`properties`, drop `required`; else leave the node untouched. -/
def transform_node_op6 (j : JSON) : Except PyErr JSON :=
  match j with
  | .obj kvs =>
      if dmem kvs "properties" && dmem kvs "required" then
        match dget kvs "properties", dget kvs "required" with
        | some (.obj props), some (.arr req) =>
            if req.any isUnhashable then .error .typeError
            else
              match req.filter (isKeyOf props) with
              | [] => .ok (.obj (ddel kvs "required"))
              | fr => .ok (.obj (dset kvs "required" (.arr fr)))
        | _, _ => .ok (.obj kvs)
      else if dmem kvs "required" && !dmem kvs "properties" then
        match dget kvs "required" with
        | some (.arr _) => .ok (.obj (ddel kvs "required"))
        | _ => .ok (.obj kvs)
      else .ok (.obj kvs)
  | other => .ok other

theorem transform_node_op6_ni : SizeNI transform_node_op6 := by
  intro j r h
  cases j with
  | obj kvs =>
      simp only [transform_node_op6] at h
      by_cases h1 : (dmem kvs "properties" && dmem kvs "required") = true
      · rw [if_pos h1] at h
        cases hp : dget kvs "properties" with
        | none => rw [hp] at h; cases h; exact le_refl _
        | some vp =>
            cases hq : dget kvs "required" with
            | none =>
                rw [hp, hq] at h
                cases vp <;> (cases h; exact le_refl _)
            | some vq =>
                rw [hp, hq] at h
                cases vp <;> cases vq <;>
                  first
                  | (cases h; exact le_refl _)
                  | skip
                rename_i props req
                simp only [] at h
                by_cases h2 : req.any isUnhashable = true
                · rw [if_pos h2] at h; exact absurd h (by simp)
                · rw [if_neg h2] at h
                  cases hfr : req.filter (isKeyOf props) with
                  | nil =>
                      rw [hfr] at h
                      cases h
                      have := jsizeKVs_ddel_le kvs "required"
                      simp only [jsize]
                      omega
                  | cons a fr2 =>
                      rw [hfr] at h
                      simp only [] at h
                      cases h
                      have hrep : jsizeKVs
                          (dset kvs "required" (.arr (a :: fr2))) ≤
                            jsizeKVs kvs := by
                        apply jsizeKVs_dset_replace_le hq
                        simp only [jsize]
                        rw [← hfr]
                        have := jsizeList_filter_le (isKeyOf props) req
                        omega
                      simp only [jsize]
                      omega
      · rw [if_neg h1] at h
        by_cases h2 : (dmem kvs "required" && !dmem kvs "properties") = true
        · rw [if_pos h2] at h
          cases hq : dget kvs "required" with
          | none => rw [hq] at h; cases h; exact le_refl _
          | some vq =>
              rw [hq] at h
              cases vq <;>
                first
                | (cases h; exact le_refl _)
                | skip
              cases h
              have := jsizeKVs_ddel_le kvs "required"
              simp only [jsize]
              omega
        · rw [if_neg h2] at h
          cases h
          exact le_refl _
  | str s => cases h; exact le_refl _
  | num n => cases h; exact le_refl _
  | bool b => cases h; exact le_refl _
  | null => cases h; exact le_refl _
  | arr xs => cases h; exact le_refl _

/-- Embedding of `clean_required_arrays` (op6_clean_required.py). -/
def clean_required_arrays (spec : JSON) : Except PyErr JSON :=
  recursive_walk transform_node_op6 transform_node_op6_ni spec

def c5_doc : JSON :=
  .obj [("type", .str "object"),
    ("properties", .obj [("name", .obj [("type", .str "string")]),
      ("email", .obj [("type", .str "string")])]),
    ("required", .arr [.str "name", .str "email", .str "ghost"])]

def c5_expected : JSON :=
  .obj [("type", .str "object"),
    ("properties", .obj [("name", .obj [("type", .str "string")]),
      ("email", .obj [("type", .str "string")])]),
    ("required", .arr [.str "name", .str "email"])]

/-- C5 (counterexample): a node with `required: true` (a boolean, as on a
Header Object) and no `properties` key is left untouched: the `required`
key is not removed "unconditionally, whatever the value of required is" —
the deletion is guarded by an isinstance-list check. -/
theorem c5_counterexample_boolean_required :
    clean_required_arrays (.obj [("required", .bool true)]) =
      .ok (.obj [("required", .bool true)]) := by
  simp [clean_required_arrays, recursive_walk_eq, walkKVs, walkList,
    transform_node_op6, dmem, dget, ddel, dset, Except.map]

/-- C5 (amended): on a node with `properties` (a mapping) and `required`
(a sequence of hashable values), `required` is replaced by the subsequence
of names that are keys of `properties` in their original order, the key is
deleted when that subsequence is empty; on a node with `required` but no
`properties`, `required` is removed only when its value is a sequence — a
non-sequence `required` (e.g. a boolean) is left in place, and the node
returned unchanged.  The last conjunct is Scenario D end to end. -/
theorem c5_required_filtered_to_property_keys
    (kvs : List (String × JSON)) (hnd : NodupKeys kvs) :
    (∀ props req, dget kvs "properties" = some (.obj props) →
      dget kvs "required" = some (.arr req) →
      (∀ e ∈ req, isUnhashable e = false) →
      ∃ kvs2, transform_node_op6 (.obj kvs) = .ok (.obj kvs2) ∧
        (req.filter (isKeyOf props)).Sublist req ∧
        (req.filter (isKeyOf props) ≠ [] →
          dget kvs2 "required" =
            some (.arr (req.filter (isKeyOf props)))) ∧
        (req.filter (isKeyOf props) = [] →
          dmem kvs2 "required" = false)) ∧
    (dmem kvs "properties" = false →
      ∀ req, dget kvs "required" = some (.arr req) →
        transform_node_op6 (.obj kvs) = .ok (.obj (ddel kvs "required")) ∧
        dmem (ddel kvs "required") "required" = false) ∧
    (dmem kvs "properties" = false → ∀ v, dget kvs "required" = some v →
      (∀ xs, v ≠ .arr xs) →
      transform_node_op6 (.obj kvs) = .ok (.obj kvs)) ∧
    clean_required_arrays c5_doc = .ok c5_expected := by
  refine ⟨?_, ?_, ?_, ?_⟩
  · intro props req hp hq helem
    have h1 : (dmem kvs "properties" && dmem kvs "required") = true := by
      simp [dmem, hp, hq]
    have hany : req.any isUnhashable = false := by
      rw [List.any_eq_false]
      intro e he
      simp [helem e he]
    cases hfr : req.filter (isKeyOf props) with
    | nil =>
        refine ⟨ddel kvs "required", ?_, ?_, ?_, ?_⟩
        · simp only [transform_node_op6, h1, if_true, hp, hq, hany, hfr,
            Bool.false_eq_true, if_false]
        · rw [← hfr]; exact List.filter_sublist req
        · intro hc; exact absurd rfl hc
        · intro _
          simp [dmem, dget_ddel_self _ hnd]
    | cons a fr2 =>
        refine ⟨dset kvs "required" (.arr (a :: fr2)), ?_, ?_, ?_, ?_⟩
        · simp only [transform_node_op6, h1, if_true, hp, hq, hany, hfr,
            Bool.false_eq_true, if_false]
        · rw [← hfr]; exact List.filter_sublist req
        · intro _
          exact dget_dset_self kvs _ _
        · intro hc; exact absurd hc (by simp)
  · intro hnp req hq
    have h1 : (dmem kvs "properties" && dmem kvs "required") = false := by
      rw [hnp]; rfl
    have h2 : (dmem kvs "required" && !dmem kvs "properties") = true := by
      rw [hnp]; simp [dmem, hq]
    constructor
    · simp only [transform_node_op6, h1, Bool.false_eq_true, if_false, h2,
        if_true, hq]
    · simp [dmem, dget_ddel_self _ hnd]
  · intro hnp v hq hnarr
    have h1 : (dmem kvs "properties" && dmem kvs "required") = false := by
      rw [hnp]; rfl
    have h2 : (dmem kvs "required" && !dmem kvs "properties") = true := by
      rw [hnp]; simp [dmem, hq]
    simp only [transform_node_op6, h1, Bool.false_eq_true, if_false, h2,
      if_true, hq]
    cases v with
    | arr xs => exact absurd rfl (hnarr xs)
    | str s => rfl
    | num n => rfl
    | bool b => rfl
    | null => rfl
    | obj o => rfl
  · simp [clean_required_arrays, recursive_walk_eq, walkKVs, walkList,
      transform_node_op6, dmem, dget, ddel, dset, Except.map, c5_doc,
      c5_expected, isKeyOf, isUnhashable, List.filter_cons]

/-- Witness for C5's amended theorem at the Scenario D node. -/
theorem c5_filter_witness :
    ∃ kvs2, transform_node_op6 (.obj [("type", .str "object"),
        ("properties", .obj [("name", .obj [("type", .str "string")]),
          ("email", .obj [("type", .str "string")])]),
        ("required", .arr [.str "name", .str "email", .str "ghost"])]) =
      .ok (.obj kvs2) ∧
      (List.filter
        (isKeyOf [("name", JSON.obj [("type", .str "string")]),
          ("email", .obj [("type", .str "string")])])
        [JSON.str "name", .str "email", .str "ghost"]).Sublist
          [JSON.str "name", .str "email", .str "ghost"] ∧
      (List.filter
          (isKeyOf [("name", JSON.obj [("type", .str "string")]),
            ("email", .obj [("type", .str "string")])])
          [JSON.str "name", .str "email", .str "ghost"] ≠ [] →
        dget kvs2 "required" = some (.arr (List.filter
          (isKeyOf [("name", JSON.obj [("type", .str "string")]),
            ("email", .obj [("type", .str "string")])])
          [JSON.str "name", .str "email", .str "ghost"]))) ∧
      (List.filter
          (isKeyOf [("name", JSON.obj [("type", .str "string")]),
            ("email", .obj [("type", .str "string")])])
          [JSON.str "name", .str "email", .str "ghost"] = [] →
        dmem kvs2 "required" = false) :=
  (c5_required_filtered_to_property_keys
    [("type", .str "object"),
      ("properties", .obj [("name", .obj [("type", .str "string")]),
        ("email", .obj [("type", .str "string")])]),
      ("required", .arr [.str "name", .str "email", .str "ghost"])]
    (by decide)).1
    [("name", .obj [("type", .str "string")]),
      ("email", .obj [("type", .str "string")])]
    [.str "name", .str "email", .str "ghost"]
    (by decide) (by decide) (by decide)

-- =====================================================================
-- op3_nullable.py: nullability / required reconciliation
-- =====================================================================

/-- `key in schema and isinstance(schema[key], list)` with a
`{type: "null"}` member (pattern 3 of `_is_nullable_property`). -/
def unionHasNullMember (kvs : List (String × JSON)) (key : String) : Bool :=
  match dget kvs key with
  | some (.arr xs) => xs.any isNullTypeDict
  | _ => false

/-- Embedding of `_is_nullable_property` (op3_nullable.py).  Note the early
return: when `type` is a list, the result is exactly the membership of
`"null"` in it and the `oneOf`/`anyOf` patterns are not consulted. -/
def is_nullable_property (schema : JSON) : Bool :=
  match schema with
  | .obj kvs =>
      if dget kvs "nullable" = some (.bool true) then true
      else
        match dget kvs "type" with
        | some (.arr ts) => decide ((JSON.str "null") ∈ ts)
        | _ => unionHasNullMember kvs "oneOf" || unionHasNullMember kvs "anyOf"
  | _ => false

/-- The merge loop of the single-member union unwrap of
`_clean_null_constructs`: entries of the remaining member are added to the
schema unless the key is already present. -/
def mergeRemaining (kvs ikvs : List (String × JSON)) :
    List (String × JSON) :=
  ikvs.foldl
    (fun acc kv => if dmem acc kv.1 = false then dset acc kv.1 kv.2 else acc)
    kvs

/-- The `oneOf`/`anyOf` cleanup step of `_clean_null_constructs`: filter
`{type: "null"}` members out of the union; a single remaining dict member
is merged into the schema with the union key deleted (a non-dict single
member leaves the node untouched, original list included); an empty result
deletes the union key; several members replace the list. -/
def cleanUnionKey (kvs : List (String × JSON)) (key : String) :
    List (String × JSON) :=
  match dget kvs key with
  | some (.arr xs) =>
      match xs.filter (fun item => !isNullTypeDict item) with
      | [item1] =>
          match item1 with
          | .obj ikvs => mergeRemaining (ddel kvs key) ikvs
          | _ => kvs
      | [] => ddel kvs key
      | nn => dset kvs key (.arr nn)
  | _ => kvs

/-- Embedding of `_clean_null_constructs` (op3_nullable.py): drop
`nullable`, collapse a `type` list by removing `"null"` (flatten to a
scalar when one type remains, keep as-is when none remain), then clean
`oneOf` and `anyOf` in that order.  Non-dict schemas pass through. -/
def clean_null_constructs (schema : JSON) : JSON :=
  match schema with
  | .obj kvs0 =>
      let kvs1 := if dmem kvs0 "nullable" then ddel kvs0 "nullable" else kvs0
      let kvs2 :=
        match dget kvs1 "type" with
        | some (.arr ts) =>
            match ts.filter (fun t => !(t = .str "null" : Bool)) with
            | [t1] => dset kvs1 "type" t1
            | [] => kvs1
            | nn => dset kvs1 "type" (.arr nn)
        | _ => kvs1
      let kvs3 := cleanUnionKey kvs2 "oneOf"
      .obj (cleanUnionKey kvs3 "anyOf")
  | other => other

/-- The predicate of the required-array filter of `_transform_node`
(op3_nullable.py): a required name is kept when it is a key of
`properties` and its property schema is not nullable. -/
def keepRequiredName (props : List (String × JSON)) (e : JSON) : Bool :=
  match e with
  | .str s =>
      match dget props s with
      | some sch => !is_nullable_property sch
      | none => false
  | _ => false

/-- Step A of `_transform_node` (op3_nullable.py): on a node with
`properties` (a dict) and `required` (a list), filter nullable and unknown
names out of `required`, deleting the key when nothing remains; an
unhashable element of `required` raises TypeError at the membership test. -/
def op3_required_edit (kvs : List (String × JSON)) :
    Except PyErr (List (String × JSON)) :=
  if dmem kvs "properties" && dmem kvs "required" then
    match dget kvs "properties", dget kvs "required" with
    | some (.obj props), some (.arr req) =>
        if req.any isUnhashable then .error .typeError
        else
          match req.filter (keepRequiredName props) with
          | [] => .ok (ddel kvs "required")
          | nn => .ok (dset kvs "required" (.arr nn))
    | _, _ => .ok kvs
  else .ok kvs

/-- Step B of `_transform_node` (op3_nullable.py): clean null constructs
from every dict-valued property schema. -/
def op3_clean_properties (kvs : List (String × JSON)) :
    List (String × JSON) :=
  match dget kvs "properties" with
  | some (.obj props) =>
      dset kvs "properties" (.obj (props.map (fun kv =>
        (kv.1,
          match kv.2 with
          | .obj skvs => clean_null_constructs (.obj skvs)
          | other => other))))
  | _ => kvs

/-- Step C of `_transform_node` (op3_nullable.py): clean the node itself
when it carries `type`, `nullable`, `oneOf` or `anyOf`. -/
def op3_clean_self (kvs : List (String × JSON)) : JSON :=
  if dmem kvs "type" || dmem kvs "nullable" || dmem kvs "oneOf" ||
      dmem kvs "anyOf" then
    clean_null_constructs (.obj kvs)
  else
    .obj kvs

/-- Embedding of `_transform_node` (op3_nullable.py): the required-array
edit (A), then the per-property cleanup (B), then the node's own cleanup
(C); non-dict nodes pass through. -/
def transform_node_op3 (j : JSON) : Except PyErr JSON :=
  match j with
  | .obj kvs =>
      match op3_required_edit kvs with
      | .error e => .error e
      | .ok kvsA => .ok (op3_clean_self (op3_clean_properties kvsA))
  | other => .ok other

theorem mergeRemaining_le (ikvs : List (String × JSON)) :
    ∀ kvs, jsizeKVs (mergeRemaining kvs ikvs) ≤
      jsizeKVs kvs + jsizeKVs ikvs := by
  induction ikvs with
  | nil => intro kvs; simp [mergeRemaining, jsizeKVs]
  | cons kv ikvs ih =>
      intro kvs
      cases kv with
      | mk k v =>
          have hstep : mergeRemaining kvs ((k, v) :: ikvs) =
              mergeRemaining
                (if dmem kvs k = false then dset kvs k v else kvs) ikvs := by
            simp [mergeRemaining, List.foldl_cons]
          rw [hstep]
          by_cases hm : dmem kvs k = false
          · rw [if_pos hm]
            have happ := jsizeKVs_dset_append (v := v) hm
            have := ih (dset kvs k v)
            simp only [jsizeKVs]
            omega
          · rw [if_neg hm]
            have := ih kvs
            simp only [jsizeKVs]
            omega

theorem jsizeKVs_ddel_getentry {kvs : List (String × JSON)} {k : String}
    {w : JSON} (h : dget kvs k = some w) :
    jsizeKVs (ddel kvs k) + 1 + jsize w = jsizeKVs kvs := by
  induction kvs with
  | nil => simp [dget] at h
  | cons kv kvs ih =>
      cases kv with
      | mk k1 v1 =>
          by_cases h1 : k1 = k
          · subst h1
            simp [dget] at h
            subst h
            simp only [ddel, if_true, jsizeKVs]
            omega
          · simp only [dget, h1, if_false] at h
            have := ih h
            simp only [ddel, h1, if_false, jsizeKVs]
            omega

theorem cleanUnionKey_le (kvs : List (String × JSON)) (key : String) :
    jsizeKVs (cleanUnionKey kvs key) ≤ jsizeKVs kvs := by
  unfold cleanUnionKey
  cases hget : dget kvs key with
  | none => exact le_refl _
  | some v =>
      cases v with
      | arr xs =>
          simp only []
          cases hf : xs.filter (fun item => !isNullTypeDict item) with
          | nil =>
              simp only []
              exact jsizeKVs_ddel_le kvs key
          | cons item1 rest =>
              cases rest with
              | nil =>
                  simp only []
                  cases item1 with
                  | obj ikvs =>
                      simp only []
                      have hmem : JSON.obj ikvs ∈ xs := by
                        have : JSON.obj ikvs ∈ xs.filter
                            (fun item => !isNullTypeDict item) := by
                          rw [hf]; exact List.mem_singleton.mpr rfl
                        exact List.mem_of_mem_filter this
                      have hsx := jsize_mem_le hmem
                      have hdd := jsizeKVs_ddel_getentry hget
                      have hmr := mergeRemaining_le ikvs (ddel kvs key)
                      simp only [jsize] at *
                      omega
                  | str s => exact le_refl _
                  | num n => exact le_refl _
                  | bool b => exact le_refl _
                  | null => exact le_refl _
                  | arr ys => exact le_refl _
              | cons item2 rest2 =>
                  simp only []
                  apply jsizeKVs_dset_replace_le hget
                  simp only [jsize]
                  rw [← hf]
                  have := jsizeList_filter_le
                    (fun item => !isNullTypeDict item) xs
                  omega
      | str s => exact le_refl _
      | num n => exact le_refl _
      | bool b => exact le_refl _
      | null => exact le_refl _
      | obj o => exact le_refl _

theorem clean_null_constructs_le (schema : JSON) :
    jsize (clean_null_constructs schema) ≤ jsize schema := by
  cases schema with
  | obj kvs0 =>
      simp only [clean_null_constructs]
      have h1 : jsizeKVs
          (if dmem kvs0 "nullable" then ddel kvs0 "nullable" else kvs0) ≤
            jsizeKVs kvs0 := by
        split
        · exact jsizeKVs_ddel_le kvs0 "nullable"
        · exact le_refl _
      set kvs1 := if dmem kvs0 "nullable" then ddel kvs0 "nullable" else kvs0
      have h2 : jsizeKVs
          (match dget kvs1 "type" with
            | some (.arr ts) =>
                match ts.filter (fun t => !(t = .str "null" : Bool)) with
                | [t1] => dset kvs1 "type" t1
                | [] => kvs1
                | nn => dset kvs1 "type" (.arr nn)
            | _ => kvs1) ≤ jsizeKVs kvs1 := by
        cases hget : dget kvs1 "type" with
        | none => exact le_refl _
        | some v =>
            cases v with
            | arr ts =>
                simp only []
                cases hf : ts.filter (fun t => !(t = .str "null" : Bool)) with
                | nil => simp only []; exact le_refl _
                | cons t1 rest =>
                    cases rest with
                    | nil =>
                        simp only []
                        apply jsizeKVs_dset_replace_le hget
                        have hmem : t1 ∈ ts := by
                          have : t1 ∈ ts.filter
                              (fun t => !(t = .str "null" : Bool)) := by
                            rw [hf]; exact List.mem_singleton.mpr rfl
                          exact List.mem_of_mem_filter this
                        have := jsize_mem_le hmem
                        simp only [jsize]
                        omega
                    | cons t2 rest2 =>
                        simp only []
                        apply jsizeKVs_dset_replace_le hget
                        simp only [jsize]
                        rw [← hf]
                        have := jsizeList_filter_le
                          (fun t => !(t = .str "null" : Bool)) ts
                        omega
            | str s => exact le_refl _
            | num n => exact le_refl _
            | bool b => exact le_refl _
            | null => exact le_refl _
            | obj o => exact le_refl _
      have h3 := cleanUnionKey_le
        (match dget kvs1 "type" with
          | some (.arr ts) =>
              match ts.filter (fun t => !(t = .str "null" : Bool)) with
              | [t1] => dset kvs1 "type" t1
              | [] => kvs1
              | nn => dset kvs1 "type" (.arr nn)
          | _ => kvs1) "oneOf"
      have h4 := cleanUnionKey_le (cleanUnionKey
        (match dget kvs1 "type" with
          | some (.arr ts) =>
              match ts.filter (fun t => !(t = .str "null" : Bool)) with
              | [t1] => dset kvs1 "type" t1
              | [] => kvs1
              | nn => dset kvs1 "type" (.arr nn)
          | _ => kvs1) "oneOf") "anyOf"
      simp only [jsize]
      omega
  | str s => exact le_refl _
  | num n => exact le_refl _
  | bool b => exact le_refl _
  | null => exact le_refl _
  | arr xs => exact le_refl _

theorem props_map_clean_le (props : List (String × JSON)) :
    jsizeKVs (props.map (fun kv =>
      (kv.1,
        match kv.2 with
        | .obj skvs => clean_null_constructs (.obj skvs)
        | other => other))) ≤ jsizeKVs props := by
  induction props with
  | nil => simp [jsizeKVs]
  | cons kv props ih =>
      cases kv with
      | mk k v =>
          have hv : jsize (match v with
              | .obj skvs => clean_null_constructs (.obj skvs)
              | other => other) ≤ jsize v := by
            cases v with
            | obj skvs => exact clean_null_constructs_le (.obj skvs)
            | str s => exact le_refl _
            | num n => exact le_refl _
            | bool b => exact le_refl _
            | null => exact le_refl _
            | arr xs => exact le_refl _
          simp only [List.map_cons, jsizeKVs]
          omega

theorem op3_required_edit_le {kvs kvsA : List (String × JSON)}
    (h : op3_required_edit kvs = .ok kvsA) : jsizeKVs kvsA ≤ jsizeKVs kvs := by
  simp only [op3_required_edit] at h
  by_cases h1 : (dmem kvs "properties" && dmem kvs "required") = true
  · rw [if_pos h1] at h
    cases hp : dget kvs "properties" with
    | none => rw [hp] at h; cases h; exact le_refl _
    | some vp =>
        cases hq : dget kvs "required" with
        | none =>
            rw [hp, hq] at h
            cases vp <;> (cases h; exact le_refl _)
        | some vq =>
            rw [hp, hq] at h
            cases vp <;> cases vq <;>
              first
              | (cases h; exact le_refl _)
              | skip
            rename_i props req
            simp only [] at h
            by_cases hu : req.any isUnhashable = true
            · rw [if_pos hu] at h; exact absurd h (by simp)
            · rw [if_neg hu] at h
              cases hfr : req.filter (keepRequiredName props) with
              | nil =>
                  rw [hfr] at h
                  cases h
                  exact jsizeKVs_ddel_le kvs "required"
              | cons a fr2 =>
                  rw [hfr] at h
                  simp only [] at h
                  cases h
                  apply jsizeKVs_dset_replace_le hq
                  simp only [jsize]
                  rw [← hfr]
                  have := jsizeList_filter_le (keepRequiredName props) req
                  omega
  · rw [if_neg h1] at h
    cases h
    exact le_refl _

theorem op3_clean_properties_le (kvs : List (String × JSON)) :
    jsizeKVs (op3_clean_properties kvs) ≤ jsizeKVs kvs := by
  unfold op3_clean_properties
  cases hp : dget kvs "properties" with
  | none => exact le_refl _
  | some vp =>
      cases vp with
      | obj props =>
          simp only []
          apply jsizeKVs_dset_replace_le hp
          have := props_map_clean_le props
          simp only [jsize]
          omega
      | str s => exact le_refl _
      | num n => exact le_refl _
      | bool b => exact le_refl _
      | null => exact le_refl _
      | arr xs => exact le_refl _

theorem op3_clean_self_le (kvs : List (String × JSON)) :
    jsize (op3_clean_self kvs) ≤ 1 + jsizeKVs kvs := by
  unfold op3_clean_self
  split
  · have := clean_null_constructs_le (.obj kvs)
    simp only [jsize] at this ⊢
    omega
  · simp only [jsize]
    omega

theorem transform_node_op3_ni : SizeNI transform_node_op3 := by
  intro j r h
  cases j with
  | obj kvs =>
      simp only [transform_node_op3] at h
      cases hA : op3_required_edit kvs with
      | error e => rw [hA] at h; exact absurd h (by simp)
      | ok kvsA =>
          rw [hA] at h
          simp only [Except.ok.injEq] at h
          subst h
          have h1 := op3_required_edit_le hA
          have h2 := op3_clean_properties_le kvsA
          have h3 := op3_clean_self_le (op3_clean_properties kvsA)
          simp only [jsize]
          omega
  | str s => cases h; exact le_refl _
  | num n => cases h; exact le_refl _
  | bool b => cases h; exact le_refl _
  | null => cases h; exact le_refl _
  | arr xs => cases h; exact le_refl _

/-- Embedding of `convert_nullable_to_3_1` (op3_nullable.py). -/
def convert_nullable_to_3_1 (spec : JSON) : Except PyErr JSON :=
  recursive_walk transform_node_op3 transform_node_op3_ni spec

theorem dget_eq_none_of_dmem {kvs : List (String × JSON)} {k : String}
    (h : dmem kvs k = false) : dget kvs k = none := by
  cases hg : dget kvs k with
  | none => rfl
  | some v => simp [dmem, hg] at h

theorem clean_null_constructs_preserves {kvs : List (String × JSON)}
    (k : String) (hk1 : k ≠ "nullable") (hk2 : k ≠ "type")
    (ho : dget kvs "oneOf" = none) (ha : dget kvs "anyOf" = none) :
    ∃ kvs4, clean_null_constructs (.obj kvs) = .obj kvs4 ∧
      dget kvs4 k = dget kvs k := by
  simp only [clean_null_constructs]
  set kvs1 := if dmem kvs "nullable" then ddel kvs "nullable" else kvs
    with hkvs1
  have e1 : dget kvs1 k = dget kvs k := by
    rw [hkvs1]; split
    · exact dget_ddel_ne kvs hk1
    · rfl
  have e1o : dget kvs1 "oneOf" = none := by
    rw [hkvs1]; split
    · rw [dget_ddel_ne kvs (by decide)]; exact ho
    · exact ho
  have e1a : dget kvs1 "anyOf" = none := by
    rw [hkvs1]; split
    · rw [dget_ddel_ne kvs (by decide)]; exact ha
    · exact ha
  have e2 : ∃ kvs2, (match dget kvs1 "type" with
      | some (JSON.arr ts) =>
          match ts.filter (fun t => !(t = JSON.str "null" : Bool)) with
          | [t1] => dset kvs1 "type" t1
          | [] => kvs1
          | nn => dset kvs1 "type" (JSON.arr nn)
      | _ => kvs1) = kvs2 ∧ dget kvs2 k = dget kvs1 k ∧
        dget kvs2 "oneOf" = none ∧ dget kvs2 "anyOf" = none := by
    cases hget : dget kvs1 "type" with
    | none => exact ⟨kvs1, rfl, rfl, e1o, e1a⟩
    | some v =>
        cases v with
        | arr ts =>
            cases hf : ts.filter (fun t => !(t = JSON.str "null" : Bool)) with
            | nil => exact ⟨kvs1, by dsimp only []; rw [hf], rfl, e1o, e1a⟩
            | cons t1 rest =>
                cases rest with
                | nil =>
                    refine ⟨dset kvs1 "type" t1, by dsimp only []; rw [hf],
                      dget_dset_ne kvs1 _ hk2, ?_, ?_⟩
                    · rw [dget_dset_ne kvs1 _ (by decide)]; exact e1o
                    · rw [dget_dset_ne kvs1 _ (by decide)]; exact e1a
                | cons t2 rest2 =>
                    refine ⟨dset kvs1 "type" (.arr (t1 :: t2 :: rest2)),
                      by dsimp only []; rw [hf], dget_dset_ne kvs1 _ hk2,
                      ?_, ?_⟩
                    · rw [dget_dset_ne kvs1 _ (by decide)]; exact e1o
                    · rw [dget_dset_ne kvs1 _ (by decide)]; exact e1a
        | str s => exact ⟨kvs1, rfl, rfl, e1o, e1a⟩
        | num n => exact ⟨kvs1, rfl, rfl, e1o, e1a⟩
        | bool b => exact ⟨kvs1, rfl, rfl, e1o, e1a⟩
        | null => exact ⟨kvs1, rfl, rfl, e1o, e1a⟩
        | obj o => exact ⟨kvs1, rfl, rfl, e1o, e1a⟩
  obtain ⟨kvs2, hdef, e2k, e2o, e2a⟩ := e2
  rw [hdef]
  have e3 : cleanUnionKey kvs2 "oneOf" = kvs2 := by
    unfold cleanUnionKey
    rw [e2o]
  have e4 : cleanUnionKey kvs2 "anyOf" = kvs2 := by
    unfold cleanUnionKey
    rw [e2a]
  rw [e3, e4]
  exact ⟨kvs2, rfl, by rw [e2k, e1]⟩

def c4_doc : JSON :=
  .obj [("properties", .obj [("x", .obj [("type", .str "string"),
    ("nullable", .bool true)])]), ("required", .arr [.str "x"])]

def c4_expected : JSON :=
  .obj [("properties", .obj [("x", .obj [("type", .str "string")])])]

/-- The C4 counterexample document: the Scenario C node carrying, in
addition, a single-member `anyOf` whose member has `required: ["z"]`. -/
def c4_cx_doc : JSON :=
  .obj [("properties", .obj [("x", .obj [("type", .str "string"),
    ("nullable", .bool true)])]), ("required", .arr [.str "x"]),
    ("anyOf", .arr [.obj [("required", .arr [.str "z"])]])]

/-- C4 counterexample: the claimed "parent ends with no `required` key"
fails when the node also carries a union.  The required-array edit deletes
`required` (its only name is nullable), but the final null-construct
cleanup unwraps the single-member `anyOf` and merges the member's keys
into the node, re-introducing `required: ["z"]` — the result has a
`required` key. -/
theorem c4_counterexample_union_remerges_required :
    convert_nullable_to_3_1 c4_cx_doc =
      .ok (.obj [("properties", .obj [("x",
        .obj [("type", .str "string")])]),
        ("required", .arr [.str "z"])]) ∧
    dget [("properties", JSON.obj [("x",
        JSON.obj [("type", JSON.str "string")])]),
        ("required", JSON.arr [JSON.str "z"])] "required" =
      some (.arr [.str "z"]) := by
  constructor
  · simp [convert_nullable_to_3_1, recursive_walk_eq, walkKVs, walkList,
      transform_node_op3, op3_required_edit, op3_clean_properties,
      op3_clean_self, clean_null_constructs, cleanUnionKey, mergeRemaining,
      keepRequiredName, is_nullable_property, unionHasNullMember,
      isUnhashable, isNullTypeDict, dmem, dget, dset, ddel, Except.map,
      List.filter_cons, c4_cx_doc]
  · decide

/-- C4 (amended): for every node with `properties` (a mapping), `required`
(a sequence of hashable names) and no `oneOf`/`anyOf` key,
`convert_nullable_to_3_1` removes from `required` every name whose
property schema is nullable, keeps exactly the filtered subsequence
otherwise, deletes the `required` key entirely when nothing remains, and
rewrites every dict property schema to its null-construct cleanup (the
residue strip); Scenario C holds.  The no-union hypotheses are essential:
on a node that also carries a union, the self-cleanup can unwrap a
single-member union and merge its keys back, re-introducing `required`
(see the counterexample). -/
theorem c4_nullable_removed_from_required
    (kvs props : List (String × JSON)) (req : List JSON)
    (hnd : NodupKeys kvs)
    (hp : dget kvs "properties" = some (.obj props))
    (hr : dget kvs "required" = some (.arr req))
    (hhash : ∀ e ∈ req, isUnhashable e = false)
    (ho : dmem kvs "oneOf" = false) (ha : dmem kvs "anyOf" = false) :
    ∃ kvs3, transform_node_op3 (.obj kvs) = .ok (.obj kvs3) ∧
      (req.filter (keepRequiredName props) = [] →
        dmem kvs3 "required" = false) ∧
      (req.filter (keepRequiredName props) ≠ [] →
        dget kvs3 "required" =
          some (.arr (req.filter (keepRequiredName props)))) ∧
      (∀ name sch, JSON.str name ∈ req → dget props name = some sch →
        is_nullable_property sch = true →
        ∀ l, dget kvs3 "required" = some (.arr l) → JSON.str name ∉ l) ∧
      dget kvs3 "properties" = some (.obj (props.map (fun kv =>
        (kv.1,
          match kv.2 with
          | .obj skvs => clean_null_constructs (.obj skvs)
          | other => other)))) ∧
      convert_nullable_to_3_1 c4_doc = .ok c4_expected := by
  have hmemp : dmem kvs "properties" = true := by simp [dmem, hp]
  have hmemr : dmem kvs "required" = true := by simp [dmem, hr]
  have hany : req.any isUnhashable = false := by
    rw [List.any_eq_false]
    intro e he
    simp [hhash e he]
  have hon : dget kvs "oneOf" = none := dget_eq_none_of_dmem ho
  have han : dget kvs "anyOf" = none := dget_eq_none_of_dmem ha
  -- step A result and its lookups
  have hstep : ∃ kvsA, op3_required_edit kvs = .ok kvsA ∧
      (dget kvsA "required" =
        match req.filter (keepRequiredName props) with
        | [] => none
        | nn => some (.arr nn)) ∧
      dget kvsA "properties" = some (.obj props) ∧
      dget kvsA "oneOf" = none ∧ dget kvsA "anyOf" = none := by
    cases hF : req.filter (keepRequiredName props) with
    | nil =>
        refine ⟨ddel kvs "required", ?_, ?_, ?_, ?_, ?_⟩
        · simp only [op3_required_edit, hmemp, hmemr, Bool.and_self,
            if_true, hp, hr, hany, Bool.false_eq_true, if_false, hF]
        · rw [dget_ddel_self _ hnd]
        · rw [dget_ddel_ne kvs (by decide)]; exact hp
        · rw [dget_ddel_ne kvs (by decide)]; exact hon
        · rw [dget_ddel_ne kvs (by decide)]; exact han
    | cons a fr =>
        refine ⟨dset kvs "required" (.arr (a :: fr)), ?_, ?_, ?_, ?_, ?_⟩
        · simp only [op3_required_edit, hmemp, hmemr, Bool.and_self,
            if_true, hp, hr, hany, Bool.false_eq_true, if_false, hF]
        · rw [dget_dset_self]
        · rw [dget_dset_ne kvs _ (by decide)]; exact hp
        · rw [dget_dset_ne kvs _ (by decide)]; exact hon
        · rw [dget_dset_ne kvs _ (by decide)]; exact han
  obtain ⟨kvsA, hA, hAr, hAp, hAo, hAa⟩ := hstep
  -- step B
  have hBdef : op3_clean_properties kvsA =
      dset kvsA "properties" (.obj (props.map (fun kv =>
        (kv.1,
          match kv.2 with
          | .obj skvs => clean_null_constructs (.obj skvs)
          | other => other)))) := by
    unfold op3_clean_properties
    rw [hAp]
  set kvsB := dset kvsA "properties" (.obj (props.map (fun kv =>
    (kv.1,
      match kv.2 with
      | .obj skvs => clean_null_constructs (.obj skvs)
      | other => other)))) with hkvsB
  have hBr : dget kvsB "required" = dget kvsA "required" :=
    dget_dset_ne kvsA _ (by decide)
  have hBo : dget kvsB "oneOf" = none := by
    rw [hkvsB, dget_dset_ne kvsA _ (by decide)]; exact hAo
  have hBa : dget kvsB "anyOf" = none := by
    rw [hkvsB, dget_dset_ne kvsA _ (by decide)]; exact hAa
  -- step C
  have hstepC : ∃ kvs3, op3_clean_self kvsB = .obj kvs3 ∧
      dget kvs3 "required" = dget kvsB "required" ∧
      dget kvs3 "properties" = dget kvsB "properties" := by
    unfold op3_clean_self
    split
    · obtain ⟨k4, hk4, hk4r⟩ := clean_null_constructs_preserves "required"
        (by decide) (by decide) hBo hBa
      obtain ⟨k5, hk5, hk5p⟩ := clean_null_constructs_preserves
        "properties" (by decide) (by decide) hBo hBa
      have hk45 : k5 = k4 := by
        rw [hk4] at hk5
        injection hk5 with h
        exact h.symm
      rw [hk45] at hk5p
      exact ⟨k4, hk4, hk4r, hk5p⟩
    · exact ⟨kvsB, rfl, rfl, rfl⟩
  obtain ⟨kvs3, hC, hCr, hCp⟩ := hstepC
  have htrans : transform_node_op3 (.obj kvs) = .ok (.obj kvs3) := by
    simp only [transform_node_op3, hA]
    rw [← hBdef] at hC
    rw [hC]
  refine ⟨kvs3, htrans, ?_, ?_, ?_, ?_, ?_⟩
  · intro hF
    rw [hF] at hAr
    simp [dmem, hCr, hBr, hAr]
  · intro hF
    cases hFc : req.filter (keepRequiredName props) with
    | nil => exact absurd hFc hF
    | cons a fr =>
        rw [hFc] at hAr
        rw [hCr, hBr, hAr]
  · intro name sch hname hsch hnul l hl
    intro hmem
    rw [hCr, hBr] at hl
    cases hFc : req.filter (keepRequiredName props) with
    | nil =>
        rw [hFc] at hAr
        rw [hAr] at hl
        exact absurd hl (by simp)
    | cons a fr =>
        rw [hFc] at hAr
        rw [hAr] at hl
        have hleq : l = a :: fr := by
          injection hl with h1
          injection h1 with h2
          exact h2.symm
        subst hleq
        rw [← hFc] at hmem
        have hkeep := List.of_mem_filter hmem
        simp only [keepRequiredName, hsch] at hkeep
        rw [hnul] at hkeep
        simp at hkeep
  · rw [hCp, hkvsB]
    exact dget_dset_self kvsA _ _
  · simp [convert_nullable_to_3_1, recursive_walk_eq, walkKVs, walkList,
      transform_node_op3, op3_required_edit, op3_clean_properties,
      op3_clean_self, clean_null_constructs, cleanUnionKey, mergeRemaining,
      keepRequiredName, is_nullable_property, unionHasNullMember,
      isUnhashable, isNullTypeDict, dmem, dget, dset, ddel, Except.map,
      List.filter_cons, c4_doc, c4_expected]

/-- Witness for C4 at the Scenario C parent node. -/
theorem c4_witness :
    ∃ kvs3, transform_node_op3 (.obj [("properties",
        .obj [("x", .obj [("type", .str "string"),
          ("nullable", .bool true)])]),
        ("required", .arr [.str "x"])]) = .ok (.obj kvs3) ∧
      (List.filter (keepRequiredName [("x", .obj [("type", .str "string"),
          ("nullable", .bool true)])]) [.str "x"] = [] →
        dmem kvs3 "required" = false) ∧
      (List.filter (keepRequiredName [("x", .obj [("type", .str "string"),
          ("nullable", .bool true)])]) [.str "x"] ≠ [] →
        dget kvs3 "required" = some (.arr (List.filter
          (keepRequiredName [("x", .obj [("type", .str "string"),
            ("nullable", .bool true)])]) [.str "x"]))) ∧
      (∀ name sch, JSON.str name ∈ [JSON.str "x"] →
        dget [("x", JSON.obj [("type", .str "string"),
          ("nullable", .bool true)])] name = some sch →
        is_nullable_property sch = true →
        ∀ l, dget kvs3 "required" = some (.arr l) → JSON.str name ∉ l) ∧
      dget kvs3 "properties" = some (.obj (List.map (fun kv =>
        (kv.1,
          match kv.2 with
          | .obj skvs => clean_null_constructs (.obj skvs)
          | other => other))
        [("x", JSON.obj [("type", JSON.str "string"),
          ("nullable", JSON.bool true)])])) ∧
      convert_nullable_to_3_1 c4_doc = .ok c4_expected :=
  c4_nullable_removed_from_required
    [("properties", .obj [("x", .obj [("type", .str "string"),
      ("nullable", .bool true)])]), ("required", .arr [.str "x"])]
    [("x", .obj [("type", .str "string"), ("nullable", .bool true)])]
    [.str "x"]
    (by decide) (by decide) (by decide) (by decide) (by decide) (by decide)

-- =====================================================================
-- op4_format_fix.py: convert format byte to contentEncoding base64
-- =====================================================================

/-- The surrounding whitespace accepted by Python `int()` on a string:
the Unicode whitespace characters except U+001C–U+001F (which
`str.isspace` accepts but `int()` does not). -/
def pyIntSpace (c : Char) : Bool :=
  decide (c.toNat ∈ [0x9, 0xa, 0xb, 0xc, 0xd, 0x20, 0x85, 0xa0, 0x1680,
    0x2000, 0x2001, 0x2002, 0x2003, 0x2004, 0x2005, 0x2006, 0x2007,
    0x2008, 0x2009, 0x200a, 0x2028, 0x2029, 0x202f, 0x205f, 0x3000])

/-- The `int()`-side whitespace strip: drop surrounding characters of the
set `int()` tolerates around a number literal. -/
def pyStrip (s : String) : String :=
  String.mk
    (((s.data.dropWhile pyIntSpace).reverse.dropWhile
      pyIntSpace).reverse)

/-- The starts of the runs of ten consecutive Unicode `Nd` decimal digits
(category `Nd`, Unicode 14); a digit's value is its offset into its run.
The mathematical alphanumeric digits U+1D7CE–U+1D7FF form five
consecutive runs. -/
def ndStarts : List Nat :=
  [0x30, 0x660, 0x6f0, 0x7c0, 0x966, 0x9e6, 0xa66, 0xae6, 0xb66, 0xbe6,
   0xc66, 0xce6, 0xd66, 0xde6, 0xe50, 0xed0, 0xf20, 0x1040, 0x1090,
   0x17e0, 0x1810, 0x1946, 0x19d0, 0x1a80, 0x1a90, 0x1b50, 0x1bb0,
   0x1c40, 0x1c50, 0xa620, 0xa8d0, 0xa900, 0xa9d0, 0xa9f0, 0xaa50,
   0xabf0, 0xff10, 0x104a0, 0x10d30, 0x11066, 0x110f0, 0x11136, 0x111d0,
   0x112f0, 0x11450, 0x114d0, 0x11650, 0x116c0, 0x11730, 0x118e0,
   0x11950, 0x11c50, 0x11d50, 0x11da0, 0x16a60, 0x16ac0, 0x16b50,
   0x1d7ce, 0x1d7d8, 0x1d7e2, 0x1d7ec, 0x1d7f6, 0x1e140, 0x1e2f0,
   0x1e950, 0x1fbf0]

/-- The decimal value of a Unicode `Nd` digit (what Python `int()` accepts
as a digit), None for every other character. -/
def pyDigit (c : Char) : Option Nat :=
  ndStarts.findSome? (fun s =>
    if s ≤ c.toNat ∧ c.toNat ≤ s + 9 then some (c.toNat - s) else none)

/-- Python `version.split(".")`: split on every dot, keeping empty parts. -/
def splitDotAux : List Char → List Char → List String
  | [], acc => [String.mk acc.reverse]
  | c :: cs, acc =>
      if c = '.' then String.mk acc.reverse :: splitDotAux cs []
      else splitDotAux cs (c :: acc)

def pySplitDot (s : String) : List String :=
  splitDotAux s.data []

/-- The digit tail of a Python integer literal: decimal digits with single
underscores allowed strictly between digits (PEP 515), accumulating the
value in base ten. -/
def pyParseDigits : List Char → Nat → Option Nat
  | [], acc => some acc
  | c :: cs, acc =>
      if c = '_' then
        match cs with
        | c2 :: cs2 =>
            match pyDigit c2 with
            | some d => pyParseDigits cs2 (10 * acc + d)
            | none => none
        | [] => none
      else
        match pyDigit c with
        | some d => pyParseDigits cs (10 * acc + d)
        | none => none

/-- Python `int(s)` on a string: optional surrounding whitespace, optional
sign, Unicode decimal digits with underscore grouping; anything else
raises ValueError (modelled as none). -/
def pyInt (s : String) : Option Int :=
  match (pyStrip s).data with
  | [] => none
  | c :: rest =>
      let digits := if c = '+' || c = '-' then rest else c :: rest
      match digits with
      | [] => none
      | d0 :: ds =>
          match pyDigit d0 with
          | some v0 =>
              match pyParseDigits ds v0 with
              | some v => some ((if c = '-' then -1 else 1) * Int.ofNat v)
              | none => none
          | none => none

/-- Embedding of `_should_convert_spec` (op4_format_fix.py): read the
`openapi` version with default `"3.0.0"`, split on dots, parse the first
two parts as ints, and convert only for major 3 and minor at least 1;
non-string, short or unparseable versions do not convert. -/
def should_convert_spec (kvs : List (String × JSON)) : Bool :=
  match dgetD kvs "openapi" (.str "3.0.0") with
  | .str version =>
      match pySplitDot version with
      | p0 :: p1 :: _ =>
          match pyInt p0, pyInt p1 with
          | some major, some minor => decide (major = 3 ∧ 1 ≤ minor)
          | _, _ => false
      | _ => false
  | _ => false

/-- Embedding of the transform closed over `should_convert`
(`_make_transform_func` in op4_format_fix.py): a no-op when the gate is
off; otherwise a dict node with `type == "string"` and `format == "byte"`
loses `format` and gains `contentEncoding: "base64"`. -/
def transform_node_op4 (b : Bool) (j : JSON) : Except PyErr JSON :=
  if !b then .ok j
  else
    match j with
    | .obj kvs =>
        if dget kvs "type" = some (.str "string") ∧
            dget kvs "format" = some (.str "byte") then
          .ok (.obj (dset (ddel kvs "format") "contentEncoding"
            (.str "base64")))
        else .ok (.obj kvs)
    | other => .ok other

theorem transform_node_op4_ni (b : Bool) : SizeNI (transform_node_op4 b) := by
  intro j r h
  simp only [transform_node_op4] at h
  by_cases hb : b = true
  · subst hb
    simp only [Bool.not_true, Bool.false_eq_true, if_false] at h
    cases j with
    | obj kvs =>
        simp only [] at h
        by_cases hg : dget kvs "type" = some (.str "string") ∧
            dget kvs "format" = some (.str "byte")
        · rw [if_pos hg] at h
          cases h
          have hdd := jsizeKVs_ddel_getentry hg.2
          by_cases hm : dmem (ddel kvs "format") "contentEncoding" = false
          · have happ := jsizeKVs_dset_append
              (v := JSON.str "base64") hm
            simp only [jsize] at *
            omega
          · have hsome : ∃ w, dget (ddel kvs "format") "contentEncoding" =
                some w := by
              cases hg2 : dget (ddel kvs "format") "contentEncoding" with
              | none => exact absurd (by simp [dmem, hg2]) hm
              | some w => exact ⟨w, rfl⟩
            obtain ⟨w, hw⟩ := hsome
            have hrep := jsizeKVs_dset_replace_le hw
              (v := JSON.str "base64") (by simpa [jsize] using jsize_pos w)
            simp only [jsize] at *
            omega
        · rw [if_neg hg] at h
          cases h
          exact le_refl _
    | str s => cases h; exact le_refl _
    | num n => cases h; exact le_refl _
    | bool b2 => cases h; exact le_refl _
    | null => cases h; exact le_refl _
    | arr xs => cases h; exact le_refl _
  · have hb2 : b = false := by revert hb; cases b <;> simp
    subst hb2
    simp only [Bool.not_false, if_true, Except.ok.injEq] at h
    subst h
    exact le_refl _

/-- Embedding of `fix_byte_format` (op4_format_fix.py): compute the gate
from the document, then walk with the closed-over transform.  A non-dict
document raises at `spec.get`. -/
def fix_byte_format (spec : JSON) : Except PyErr JSON :=
  match spec with
  | .obj kvs =>
      recursive_walk (transform_node_op4 (should_convert_spec kvs))
        (transform_node_op4_ni _) (.obj kvs)
  | _ => .error .attrError

/-- The claim's version gate: the document's top-level `openapi` version
string parses with major 3 and minor at least 1. -/
def VersionGate (kvs : List (String × JSON)) : Prop :=
  ∃ v p0 p1 rest major minor,
    dget kvs "openapi" = some (.str v) ∧
    pySplitDot v = p0 :: p1 :: rest ∧
    pyInt p0 = some major ∧ pyInt p1 = some minor ∧
    major = 3 ∧ 1 ≤ minor

theorem should_convert_iff_gate (kvs : List (String × JSON)) :
    should_convert_spec kvs = true ↔ VersionGate kvs := by
  unfold should_convert_spec VersionGate
  cases hv : dget kvs "openapi" with
  | none =>
      simp only [dgetD, hv, Option.getD]
      constructor
      · intro h
        exact absurd h (by decide)
      · rintro ⟨v, p0, p1, rest, major, minor, hveq, -⟩
        simp at hveq
  | some w =>
      cases w with
      | str v =>
          simp only [dgetD, hv, Option.getD]
          constructor
          · intro h
            cases hsp : pySplitDot v with
            | nil => rw [hsp] at h; simp at h
            | cons p0 ps =>
                cases ps with
                | nil => rw [hsp] at h; simp at h
                | cons p1 rest =>
                    rw [hsp] at h
                    simp only [] at h
                    cases h0 : pyInt p0 with
                    | none => rw [h0] at h; simp at h
                    | some major =>
                        cases h1 : pyInt p1 with
                        | none => rw [h0, h1] at h; simp at h
                        | some minor =>
                            rw [h0, h1] at h
                            simp only [decide_eq_true_eq] at h
                            exact ⟨v, p0, p1, rest, major, minor, rfl, hsp,
                              h0, h1, h.1, h.2⟩
          · rintro ⟨v2, p0, p1, rest, major, minor, hveq, hsp, h0, h1,
              hmaj, hmin⟩
            have hvv : v2 = v := by
              injection hveq with h2
              injection h2 with h3
              exact h3.symm
            subst hvv
            rw [hsp]
            dsimp only []
            rw [h0, h1]
            simp [hmaj, hmin]
      | num n =>
          simp only [dgetD, hv, Option.getD]
          constructor
          · intro h; simp at h
          · rintro ⟨v, p0, p1, rest, major, minor, hveq, -⟩
            simp at hveq
      | bool b =>
          simp only [dgetD, hv, Option.getD]
          constructor
          · intro h; simp at h
          · rintro ⟨v, p0, p1, rest, major, minor, hveq, -⟩
            simp at hveq
      | null =>
          simp only [dgetD, hv, Option.getD]
          constructor
          · intro h; simp at h
          · rintro ⟨v, p0, p1, rest, major, minor, hveq, -⟩
            simp at hveq
      | arr xs =>
          simp only [dgetD, hv, Option.getD]
          constructor
          · intro h; simp at h
          · rintro ⟨v, p0, p1, rest, major, minor, hveq, -⟩
            simp at hveq
      | obj o =>
          simp only [dgetD, hv, Option.getD]
          constructor
          · intro h; simp at h
          · rintro ⟨v, p0, p1, rest, major, minor, hveq, -⟩
            simp at hveq

theorem walk_of_id (f : JSON → Except PyErr JSON) (hf : SizeNI f)
    (hid : ∀ j, f j = .ok j) : ∀ j, recursive_walk f hf j = .ok j := by
  apply recursive_walk.induct f hf
    (fun j => recursive_walk f hf j = .ok j)
    (fun xs => walkList f hf xs = .ok xs)
    (fun kvs => walkKVs f hf kvs = .ok kvs)
  · intro j e he
    rw [hid j] at he
    exact absurd he (by simp)
  · intro j kvs hj hlt ihk
    have := hid j
    rw [hj] at this
    injection this with h2
    rw [recursive_walk_eq, hj]
    simp [ihk, Except.map, h2]
  · intro j xs hj hlt ihl
    have := hid j
    rw [hj] at this
    injection this with h2
    rw [recursive_walk_eq, hj]
    simp [ihl, Except.map, h2]
  · intro j s hj
    have := hid j
    rw [hj] at this
    injection this with h2
    subst h2
    rw [recursive_walk_eq, hj]
  · intro j n hj
    have := hid j
    rw [hj] at this
    injection this with h2
    subst h2
    rw [recursive_walk_eq, hj]
  · intro j b hj
    have := hid j
    rw [hj] at this
    injection this with h2
    subst h2
    rw [recursive_walk_eq, hj]
  · intro j hj
    have := hid j
    rw [hj] at this
    injection this with h2
    subst h2
    rw [recursive_walk_eq, hj]
  · simp [walkList]
  · intro x xs e hx ih1
    rw [ih1] at hx
    exact absurd hx (by simp)
  · intro x xs w hx e hxs ih1 ih2
    rw [ih2] at hxs
    exact absurd hxs (by simp)
  · intro x xs w hx ws hxs ih1 ih2
    rw [ih1] at hx
    injection hx with h2
    rw [ih2] at hxs
    injection hxs with h3
    simp [walkList, ih1, ih2, ← h2, ← h3]
  · simp [walkKVs]
  · intro k v kvs e hv ih1
    rw [ih1] at hv
    exact absurd hv (by simp)
  · intro k v kvs w hv e hkvs ih1 ih2
    rw [ih2] at hkvs
    exact absurd hkvs (by simp)
  · intro k v kvs w hv ws hkvs ih1 ih2
    rw [ih1] at hv
    injection hv with h2
    rw [ih2] at hkvs
    injection hkvs with h3
    simp [walkKVs, ih1, ih2, ← h2, ← h3]

/-- The per-node trigger of the byte-format fix. -/
def isStrByteNode (kvs : List (String × JSON)) : Bool :=
  decide (dget kvs "type" = some (.str "string") ∧
    dget kvs "format" = some (.str "byte"))

mutual
def noStrByte : JSON → Bool
  | .obj kvs => !isStrByteNode kvs && noStrByteKVs kvs
  | .arr xs => noStrByteList xs
  | _ => true

def noStrByteList : List JSON → Bool
  | [] => true
  | x :: xs => noStrByte x && noStrByteList xs

def noStrByteKVs : List (String × JSON) → Bool
  | [] => true
  | (_, v) :: kvs => noStrByte v && noStrByteKVs kvs
end

mutual
def uniqKeys : JSON → Bool
  | .obj kvs => decide (NodupKeys kvs) && uniqKeysKVs kvs
  | .arr xs => uniqKeysList xs
  | _ => true

def uniqKeysList : List JSON → Bool
  | [] => true
  | x :: xs => uniqKeys x && uniqKeysList xs

def uniqKeysKVs : List (String × JSON) → Bool
  | [] => true
  | (_, v) :: kvs => uniqKeys v && uniqKeysKVs kvs
end

/-- Whether the walk result keeps the node's container kind (scalars are
kept identically). -/
def shapeOK : JSON → JSON → Bool
  | .obj _, .obj _ => true
  | .arr _, .arr _ => true
  | j, r => decide (j = r)

theorem mem_entries_ddel {kvs : List (String × JSON)} {k : String}
    {kv : String × JSON} (h : kv ∈ ddel kvs k) : kv ∈ kvs := by
  induction kvs with
  | nil => simp [ddel] at h
  | cons kv2 kvs ih =>
      cases kv2 with
      | mk k1 v1 =>
          by_cases h1 : k1 = k
          · subst h1
            simp only [ddel, if_true] at h
            exact List.mem_cons_of_mem _ h
          · simp only [ddel, h1, if_false, List.mem_cons] at h
            rcases h with h | h
            · simp [h]
            · exact List.mem_cons_of_mem _ (ih h)

theorem mem_entries_dset {kvs : List (String × JSON)} {k : String}
    {v : JSON} {kv : String × JSON} (h : kv ∈ dset kvs k v) :
    kv ∈ kvs ∨ kv = (k, v) := by
  induction kvs with
  | nil => simp [dset] at h; simp [h]
  | cons kv2 kvs ih =>
      cases kv2 with
      | mk k1 v1 =>
          by_cases h1 : k1 = k
          · subst h1
            simp only [dset, if_true, List.mem_cons] at h
            rcases h with h | h
            · simp [h]
            · simp [List.mem_cons_of_mem _ h]
          · simp only [dset, h1, if_false, List.mem_cons] at h
            rcases h with h | h
            · simp [h]
            · rcases ih h with h2 | h2
              · simp [List.mem_cons_of_mem _ h2]
              · simp [h2]

theorem uniqKeysKVs_mem {kvs : List (String × JSON)}
    (h : uniqKeysKVs kvs = true) {kv : String × JSON} (hm : kv ∈ kvs) :
    uniqKeys kv.2 = true := by
  induction kvs with
  | nil => simp at hm
  | cons kv2 kvs ih =>
      cases kv2 with
      | mk k1 v1 =>
          simp only [uniqKeysKVs, Bool.and_eq_true] at h
          rcases List.mem_cons.mp hm with rfl | hm2
          · exact h.1
          · exact ih h.2 hm2

theorem uniqKeysKVs_of_mem {kvs : List (String × JSON)}
    (h : ∀ kv ∈ kvs, uniqKeys kv.2 = true) : uniqKeysKVs kvs = true := by
  induction kvs with
  | nil => simp [uniqKeysKVs]
  | cons kv2 kvs ih =>
      cases kv2 with
      | mk k1 v1 =>
          simp only [uniqKeysKVs, Bool.and_eq_true]
          exact ⟨h (k1, v1) (by simp), ih (fun kv hm =>
            h kv (List.mem_cons_of_mem _ hm))⟩

theorem walkKVs_dget (f : JSON → Except PyErr JSON) (hf : SizeNI f) :
    ∀ kvs rkvs, walkKVs f hf kvs = .ok rkvs → ∀ k,
      (dget kvs k = none ∧ dget rkvs k = none) ∨
      (∃ v w, dget kvs k = some v ∧ dget rkvs k = some w ∧
        recursive_walk f hf v = .ok w) := by
  intro kvs
  induction kvs with
  | nil =>
      intro rkvs h k
      simp only [walkKVs] at h
      injection h with h2
      subst h2
      exact Or.inl ⟨rfl, rfl⟩
  | cons kv kvs ih =>
      intro rkvs h k
      cases kv with
      | mk k1 v1 =>
          rw [walkKVs] at h
          cases hv : recursive_walk f hf v1 with
          | error e => rw [hv] at h; exact absurd h (by simp)
          | ok w1 =>
              rw [hv] at h
              cases hrest : walkKVs f hf kvs with
              | error e => rw [hrest] at h; exact absurd h (by simp)
              | ok ws =>
                  rw [hrest] at h
                  simp only [Except.ok.injEq] at h
                  subst h
                  by_cases hk : k1 = k
                  · subst hk
                    exact Or.inr ⟨v1, w1, by simp [dget], by simp [dget],
                      hv⟩
                  · have := ih ws hrest k
                    simpa [dget, hk] using this

theorem t4_obj_post (kvs : List (String × JSON)) :
    ∃ kvs1, transform_node_op4 true (.obj kvs) = .ok (.obj kvs1) ∧
      (NodupKeys kvs → isStrByteNode kvs1 = false) ∧
      (∀ kv ∈ kvs1, kv ∈ kvs ∨ kv = ("contentEncoding", .str "base64")) := by
  by_cases hg : dget kvs "type" = some (.str "string") ∧
      dget kvs "format" = some (.str "byte")
  · refine ⟨dset (ddel kvs "format") "contentEncoding" (.str "base64"),
      ?_, ?_, ?_⟩
    · simp only [transform_node_op4, Bool.not_true, Bool.false_eq_true,
        if_false]
      rw [if_pos hg]
    · intro hnd
      have hfmt : dget (dset (ddel kvs "format") "contentEncoding"
          (.str "base64")) "format" = none := by
        rw [dget_dset_ne _ _ (by decide)]
        exact dget_ddel_self _ hnd
      simp [isStrByteNode, hfmt]
    · intro kv hm
      rcases mem_entries_dset hm with h2 | h2
      · exact Or.inl (mem_entries_ddel h2)
      · exact Or.inr h2
  · refine ⟨kvs, ?_, ?_, fun kv hm => Or.inl hm⟩
    · simp only [transform_node_op4, Bool.not_true, Bool.false_eq_true,
        if_false]
      rw [if_neg hg]
    · intro _
      simp [isStrByteNode]
      intro h1 h2
      exact absurd ⟨h1, h2⟩ hg

theorem walk4_shape {j w : JSON}
    (h : recursive_walk (transform_node_op4 true)
      (transform_node_op4_ni true) j = .ok w) : shapeOK j w = true := by
  rw [recursive_walk_eq] at h
  cases j with
  | obj kvs =>
      obtain ⟨kvs1, ht, -, -⟩ := t4_obj_post kvs
      rw [ht] at h
      dsimp only [] at h
      cases hwk : walkKVs (transform_node_op4 true)
          (transform_node_op4_ni true) kvs1 with
      | error e => rw [hwk] at h; exact absurd h (by simp [Except.map])
      | ok rkvs =>
          rw [hwk] at h
          simp only [Except.map, Except.ok.injEq] at h
          subst h
          rfl
  | arr xs =>
      have ht : transform_node_op4 true (.arr xs) = .ok (.arr xs) := rfl
      rw [ht] at h
      dsimp only [] at h
      cases hwl : walkList (transform_node_op4 true)
          (transform_node_op4_ni true) xs with
      | error e => rw [hwl] at h; exact absurd h (by simp [Except.map])
      | ok ys =>
          rw [hwl] at h
          simp only [Except.map, Except.ok.injEq] at h
          subst h
          rfl
  | str s =>
      have ht : transform_node_op4 true (.str s) = .ok (.str s) := rfl
      rw [ht] at h
      injection h with h2
      subst h2
      simp [shapeOK]
  | num n =>
      have ht : transform_node_op4 true (.num n) = .ok (.num n) := rfl
      rw [ht] at h
      injection h with h2
      subst h2
      simp [shapeOK]
  | bool b =>
      have ht : transform_node_op4 true (.bool b) = .ok (.bool b) := rfl
      rw [ht] at h
      injection h with h2
      subst h2
      simp [shapeOK]
  | null =>
      have ht : transform_node_op4 true JSON.null = .ok JSON.null := rfl
      rw [ht] at h
      injection h with h2
      subst h2
      simp [shapeOK]

theorem jsize_memKV_le {k : String} {v : JSON} :
    ∀ {kvs : List (String × JSON)}, (k, v) ∈ kvs →
      jsize v ≤ jsizeKVs kvs := by
  intro kvs
  induction kvs with
  | nil => intro h; simp at h
  | cons kv kvs ih =>
      intro h
      rcases List.mem_cons.mp h with h | h
      · subst h
        simp [jsizeKVs]
        omega
      · have := ih h
        cases kv with
        | mk k1 v1 =>
            simp [jsizeKVs]
            omega

theorem shapeOK_str {v : JSON} {s : String}
    (h : shapeOK v (.str s) = true) : v = .str s := by
  cases v <;> simp [shapeOK] at h <;> simp [h]

theorem walk4_inv : ∀ n : Nat,
    (∀ j r, jsize j ≤ n →
      recursive_walk (transform_node_op4 true) (transform_node_op4_ni true)
        j = .ok r → uniqKeys j = true → noStrByte r = true) ∧
    (∀ xs ys, jsizeList xs ≤ n →
      walkList (transform_node_op4 true) (transform_node_op4_ni true)
        xs = .ok ys → uniqKeysList xs = true → noStrByteList ys = true) ∧
    (∀ kvs rkvs, jsizeKVs kvs ≤ n →
      walkKVs (transform_node_op4 true) (transform_node_op4_ni true)
        kvs = .ok rkvs → (∀ kv ∈ kvs, uniqKeys kv.2 = true) →
      noStrByteKVs rkvs = true) := by
  intro n
  induction n with
  | zero =>
      refine ⟨?_, ?_, ?_⟩
      · intro j r hsz
        have := jsize_pos j
        omega
      · intro xs ys hsz hw hu
        cases xs with
        | nil =>
            simp only [walkList] at hw
            injection hw with h2
            subst h2
            rfl
        | cons x xs =>
            simp only [jsizeList] at hsz
            have := jsize_pos x
            omega
      · intro kvs rkvs hsz hw hu
        cases kvs with
        | nil =>
            simp only [walkKVs] at hw
            injection hw with h2
            subst h2
            rfl
        | cons kv kvs =>
            cases kv with
            | mk k1 v1 =>
                simp only [jsizeKVs] at hsz
                have := jsize_pos v1
                omega
  | succ n ih =>
      obtain ⟨ihj, ihl, ihk⟩ := ih
      refine ⟨?_, ?_, ?_⟩
      · intro j r hsz hw hu
        cases j with
        | obj kvs =>
            simp only [uniqKeys, Bool.and_eq_true, decide_eq_true_eq] at hu
            obtain ⟨hnd, hukvs⟩ := hu
            obtain ⟨kvs1, ht, hguard, hmem⟩ := t4_obj_post kvs
            rw [recursive_walk_eq, ht] at hw
            dsimp only [] at hw
            cases hwk : walkKVs (transform_node_op4 true)
                (transform_node_op4_ni true) kvs1 with
            | error e => rw [hwk] at hw; exact absurd hw (by simp [Except.map])
            | ok rkvs =>
                rw [hwk] at hw
                simp only [Except.map, Except.ok.injEq] at hw
                subst hw
                have hsz1 : jsizeKVs kvs1 ≤ jsizeKVs kvs := by
                  have := transform_node_op4_ni true _ _ ht
                  simp [jsize] at this
                  omega
                have hszn : jsizeKVs kvs1 ≤ n := by
                  simp [jsize] at hsz
                  omega
                have hval : ∀ kv ∈ kvs1, uniqKeys kv.2 = true := by
                  intro kv hm
                  rcases hmem kv hm with h2 | h2
                  · exact uniqKeysKVs_mem hukvs h2
                  · rw [h2]
                    rfl
                have hkvs : noStrByteKVs rkvs = true :=
                  ihk kvs1 rkvs hszn hwk hval
                have hnode : isStrByteNode rkvs = false := by
                  by_contra hc
                  have hc2 : isStrByteNode rkvs = true := by
                    cases h3 : isStrByteNode rkvs
                    · exact absurd h3 hc
                    · rfl
                  simp only [isStrByteNode, decide_eq_true_eq] at hc2
                  obtain ⟨hty, hfm⟩ := hc2
                  have hg1 := hguard hnd
                  simp only [isStrByteNode, decide_eq_false_iff_not] at hg1
                  apply hg1
                  constructor
                  · rcases walkKVs_dget _ _ kvs1 rkvs hwk "type" with
                      ⟨-, h4⟩ | ⟨v, w, h4, h5, h6⟩
                    · rw [hty] at h4
                      exact absurd h4 (by simp)
                    · rw [hty] at h5
                      injection h5 with h7
                      subst h7
                      have := shapeOK_str (walk4_shape h6)
                      rw [this] at h4
                      exact h4
                  · rcases walkKVs_dget _ _ kvs1 rkvs hwk "format" with
                      ⟨-, h4⟩ | ⟨v, w, h4, h5, h6⟩
                    · rw [hfm] at h4
                      exact absurd h4 (by simp)
                    · rw [hfm] at h5
                      injection h5 with h7
                      subst h7
                      have := shapeOK_str (walk4_shape h6)
                      rw [this] at h4
                      exact h4
                simp [noStrByte, hnode, hkvs]
        | arr xs =>
            have ht : transform_node_op4 true (.arr xs) = .ok (.arr xs) :=
              rfl
            rw [recursive_walk_eq, ht] at hw
            dsimp only [] at hw
            cases hwl : walkList (transform_node_op4 true)
                (transform_node_op4_ni true) xs with
            | error e => rw [hwl] at hw; exact absurd hw (by simp [Except.map])
            | ok ys =>
                rw [hwl] at hw
                simp only [Except.map, Except.ok.injEq] at hw
                subst hw
                have hszn : jsizeList xs ≤ n := by
                  simp [jsize] at hsz
                  omega
                exact ihl xs ys hszn hwl hu
        | str s =>
            rw [recursive_walk_eq] at hw
            have ht : transform_node_op4 true (.str s) = .ok (.str s) := rfl
            rw [ht] at hw
            injection hw with h2
            subst h2
            rfl
        | num m =>
            rw [recursive_walk_eq] at hw
            have ht : transform_node_op4 true (.num m) = .ok (.num m) := rfl
            rw [ht] at hw
            injection hw with h2
            subst h2
            rfl
        | bool b =>
            rw [recursive_walk_eq] at hw
            have ht : transform_node_op4 true (.bool b) = .ok (.bool b) :=
              rfl
            rw [ht] at hw
            injection hw with h2
            subst h2
            rfl
        | null =>
            rw [recursive_walk_eq] at hw
            have ht : transform_node_op4 true JSON.null = .ok JSON.null :=
              rfl
            rw [ht] at hw
            injection hw with h2
            subst h2
            rfl
      · intro xs ys hsz hw hu
        cases xs with
        | nil =>
            simp only [walkList] at hw
            injection hw with h2
            subst h2
            rfl
        | cons x xs =>
            rw [walkList] at hw
            cases hx : recursive_walk (transform_node_op4 true)
                (transform_node_op4_ni true) x with
            | error e => rw [hx] at hw; exact absurd hw (by simp)
            | ok y =>
                rw [hx] at hw
                cases hrest : walkList (transform_node_op4 true)
                    (transform_node_op4_ni true) xs with
                | error e => rw [hrest] at hw; exact absurd hw (by simp)
                | ok ws =>
                    rw [hrest] at hw
                    simp only [Except.ok.injEq] at hw
                    subst hw
                    simp only [uniqKeysList, Bool.and_eq_true] at hu
                    simp only [jsizeList] at hsz
                    simp only [noStrByteList, Bool.and_eq_true]
                    exact ⟨ihj x y (by omega) hx hu.1,
                      ihl xs ws (by omega) hrest hu.2⟩
      · intro kvs rkvs hsz hw hu
        cases kvs with
        | nil =>
            simp only [walkKVs] at hw
            injection hw with h2
            subst h2
            rfl
        | cons kv kvs =>
            cases kv with
            | mk k1 v1 =>
                rw [walkKVs] at hw
                cases hv : recursive_walk (transform_node_op4 true)
                    (transform_node_op4_ni true) v1 with
                | error e => rw [hv] at hw; exact absurd hw (by simp)
                | ok w1 =>
                    rw [hv] at hw
                    cases hrest : walkKVs (transform_node_op4 true)
                        (transform_node_op4_ni true) kvs with
                    | error e => rw [hrest] at hw; exact absurd hw (by simp)
                    | ok ws =>
                        rw [hrest] at hw
                        simp only [Except.ok.injEq] at hw
                        subst hw
                        simp only [jsizeKVs] at hsz
                        simp only [noStrByteKVs, Bool.and_eq_true]
                        refine ⟨ihj v1 w1 (by omega) hv
                          (hu (k1, v1) (by simp)), ?_⟩
                        refine ihk kvs ws (by omega) hrest ?_
                        intro kv hm
                        exact hu kv (by simp [hm])

def c7_kvs31 : List (String × JSON) :=
  [("openapi", .str "3.1.0"),
   ("schema", .obj [("type", .str "string"), ("format", .str "byte")])]

def c7_kvs30 : List (String × JSON) :=
  [("openapi", .str "3.0.0"),
   ("schema", .obj [("type", .str "string"), ("format", .str "byte")])]

def c7_out31 : JSON :=
  .obj [("openapi", .str "3.1.0"),
   ("schema", .obj [("type", .str "string"),
     ("contentEncoding", .str "base64")])]

/-- C7: `fix_byte_format` is gated on the top-level `openapi` version
parsing with major 3 and minor at least 1; when the gate is off (version
absent, not a string, unparseable, or below 3.1) the tree is returned
completely unchanged; when the gate is on, every dict node with
`type: "string"` and `format: "byte"` is rewritten by dropping `format`
and setting `contentEncoding: "base64"`, and on documents with duplicate
free keys the walked result contains no such node anywhere; Scenario F:
a `format: "byte"` schema under `openapi: "3.1.0"` becomes
`contentEncoding: "base64"` with no `format`, and the identical document
under `openapi: "3.0.0"` is unchanged. -/
theorem c7_byte_format_gated (kvs kvs' : List (String × JSON)) :
    (should_convert_spec kvs = true ↔ VersionGate kvs) ∧
    (should_convert_spec kvs = false →
      fix_byte_format (.obj kvs) = .ok (.obj kvs)) ∧
    (should_convert_spec kvs = true →
      dget kvs' "type" = some (.str "string") →
      dget kvs' "format" = some (.str "byte") →
      transform_node_op4 (should_convert_spec kvs) (.obj kvs') =
        .ok (.obj (dset (ddel kvs' "format") "contentEncoding"
          (.str "base64")))) ∧
    (should_convert_spec kvs = true → uniqKeys (.obj kvs) = true →
      ∀ r, fix_byte_format (.obj kvs) = .ok r → noStrByte r = true) ∧
    fix_byte_format (.obj c7_kvs31) = .ok c7_out31 ∧
    fix_byte_format (.obj c7_kvs30) = .ok (.obj c7_kvs30) := by
  refine ⟨should_convert_iff_gate kvs, ?_, ?_, ?_, ?_, ?_⟩
  · intro h
    exact walk_of_id _ _ (fun j => by rw [h]; rfl) _
  · intro hgt hty hfm
    rw [hgt]
    simp only [transform_node_op4, Bool.not_true, Bool.false_eq_true,
      if_false]
    rw [if_pos ⟨hty, hfm⟩]
  · intro hgt hu r hw
    simp only [fix_byte_format] at hw
    simp only [hgt] at hw
    exact (walk4_inv (jsize (.obj kvs))).1 _ r le_rfl hw hu
  · have hgate : should_convert_spec
        [("openapi", .str "3.1.0"),
         ("schema", .obj [("type", .str "string"),
           ("format", .str "byte")])] = true := by decide
    simp [fix_byte_format, c7_kvs31, c7_out31, hgate, recursive_walk_eq,
      walkKVs, walkList, transform_node_op4, dget, dset, ddel, Except.map]
  · have hgate : should_convert_spec
        [("openapi", .str "3.0.0"),
         ("schema", .obj [("type", .str "string"),
           ("format", .str "byte")])] = false := by decide
    simp [fix_byte_format, c7_kvs30, hgate, recursive_walk_eq,
      walkKVs, walkList, transform_node_op4, dget, dset, ddel, Except.map]

theorem c7_witness :
    should_convert_spec c7_kvs31 = true ∧
    should_convert_spec [("openapi", JSON.str "3.1_0")] = true ∧
    should_convert_spec [("openapi", JSON.str "٣.١")] = true ∧
    should_convert_spec [("openapi", JSON.str "3.1__0")] = false ∧
    uniqKeys (.obj c7_kvs31) = true ∧ noStrByte c7_out31 = true :=
  ⟨by decide, by decide, by decide, by decide, by decide,
    (c7_byte_format_gated c7_kvs31 []).2.2.2.1 (by decide) (by decide)
      c7_out31 (c7_byte_format_gated c7_kvs31 []).2.2.2.2.1⟩

/-! ### op8_multipart_array_ref.py: reference resolution -/

/-- Python `ref_string.startswith("#/")`. -/
def startsHashSlash (s : String) : Bool :=
  match s.data with
  | '#' :: '/' :: _ => true
  | _ => false

/-- Python `ref_string.lstrip("#/")`: drop every leading character that is
`#` or `/` (not just the two-character prefix). -/
def pyLstripHashSlash (s : String) : String :=
  String.mk (s.data.dropWhile (fun c => c = '#' || c = '/'))

/-- Python `s.split("/")`: split on every slash, keeping empty parts. -/
def splitSlashAux : List Char → List Char → List String
  | [], acc => [String.mk acc.reverse]
  | c :: cs, acc =>
      if c = '/' then String.mk acc.reverse :: splitSlashAux cs []
      else splitSlashAux cs (c :: acc)

def pySplitSlash (s : String) : List String :=
  splitSlashAux s.data []

/-- The part-walking loop of `_resolve_ref` (op8_multipart_array_ref.py):
follow each part through dict lookups, failing when a node is not a dict
or a part is missing, and finally return the target only if it is a dict
(`return node if isinstance(node, dict) else None`). -/
def resolve_chain : List String → JSON → Option (List (String × JSON))
  | [], .obj kvs => some kvs
  | [], _ => none
  | p :: ps, .obj kvs =>
      match dget kvs p with
      | some v => resolve_chain ps v
      | none => none
  | _ :: _, _ => none

/-- Embedding of `_resolve_ref` (op8_multipart_array_ref.py).  A non-string
reference raises AttributeError at `ref_string.startswith`; a reference not
beginning with `#/` yields None; otherwise the path obtained by stripping
all leading `#`/`/` characters and splitting on `/` is followed through the
spec. -/
def resolve_ref (ref : JSON) (spec : JSON) :
    Except PyErr (Option (List (String × JSON))) :=
  match ref with
  | .str s =>
      if startsHashSlash s then
        .ok (resolve_chain (pySplitSlash (pyLstripHashSlash s)) spec)
      else .ok none
  | _ => .error .attrError

/-- Plain path lookup in a JSON tree (the loop of `_resolve_ref` without
the final mapping check): used to state what `_resolve_ref` does when the
full path exists but the target is not a mapping. -/
def getPath : List String → JSON → Option JSON
  | [], node => some node
  | p :: ps, .obj kvs =>
      match dget kvs p with
      | some v => getPath ps v
      | none => none
  | _ :: _, _ => none

theorem resolve_chain_getPath (parts : List String) (node : JSON) :
    resolve_chain parts node =
      match getPath parts node with
      | some (.obj kvs) => some kvs
      | _ => none := by
  induction parts generalizing node with
  | nil =>
      cases node <;> rfl
  | cons p ps ih =>
      cases node with
      | obj kvs =>
          simp only [resolve_chain, getPath]
          cases dget kvs p with
          | none => rfl
          | some v => exact ih v
      | arr xs => rfl
      | str s => rfl
      | num n => rfl
      | bool b => rfl
      | null => rfl

/-! Subnode sets, used to bound the `$ref`-chasing recursions of op8. -/

mutual
def subnodes : JSON → Finset JSON
  | .obj kvs => insert (.obj kvs) (subnodesKVs kvs)
  | .arr xs => insert (.arr xs) (subnodesList xs)
  | j => {j}

def subnodesList : List JSON → Finset JSON
  | [] => ∅
  | x :: xs => subnodes x ∪ subnodesList xs

def subnodesKVs : List (String × JSON) → Finset JSON
  | [] => ∅
  | (_, v) :: kvs => subnodes v ∪ subnodesKVs kvs
end

theorem mem_subnodes_self (j : JSON) : j ∈ subnodes j := by
  cases j <;> simp [subnodes]

theorem subnodesKVs_subset (kvs : List (String × JSON)) :
    subnodesKVs kvs ⊆ subnodes (.obj kvs) := by
  simp only [subnodes]
  exact Finset.subset_insert _ _

theorem dget_mem_subnodesKVs {kvs : List (String × JSON)} {k : String}
    {v : JSON} (h : dget kvs k = some v) : v ∈ subnodesKVs kvs := by
  induction kvs with
  | nil => simp [dget] at h
  | cons kv kvs ih =>
      cases kv with
      | mk k1 v1 =>
          simp only [dget] at h
          by_cases hk : k1 = k
          · rw [if_pos hk] at h
            injection h with h2
            subst h2
            simp only [subnodesKVs, Finset.mem_union]
            exact Or.inl (mem_subnodes_self _)
          · rw [if_neg hk] at h
            simp only [subnodesKVs, Finset.mem_union]
            exact Or.inr (ih h)

theorem subnodes_trans_aux : ∀ n : Nat,
    (∀ j, jsize j ≤ n → ∀ a ∈ subnodes j, subnodes a ⊆ subnodes j) ∧
    (∀ xs, jsizeList xs ≤ n →
      ∀ a ∈ subnodesList xs, subnodes a ⊆ subnodesList xs) ∧
    (∀ kvs, jsizeKVs kvs ≤ n →
      ∀ a ∈ subnodesKVs kvs, subnodes a ⊆ subnodesKVs kvs) := by
  intro n
  induction n with
  | zero =>
      refine ⟨?_, ?_, ?_⟩
      · intro j hsz
        have := jsize_pos j
        omega
      · intro xs hsz a ha
        cases xs with
        | nil => simp [subnodesList] at ha
        | cons x xs =>
            simp only [jsizeList] at hsz
            have := jsize_pos x
            omega
      · intro kvs hsz a ha
        cases kvs with
        | nil => simp [subnodesKVs] at ha
        | cons kv kvs =>
            cases kv with
            | mk k1 v1 =>
                simp only [jsizeKVs] at hsz
                have := jsize_pos v1
                omega
  | succ n ih =>
      obtain ⟨ihj, ihl, ihk⟩ := ih
      refine ⟨?_, ?_, ?_⟩
      · intro j hsz a ha
        cases j with
        | obj kvs =>
            simp only [subnodes, Finset.mem_insert] at ha
            rcases ha with ha | ha
            · subst ha
              exact subset_rfl
            · have hsub := ihk kvs (by simp [jsize] at hsz; omega) a ha
              exact hsub.trans (Finset.subset_insert _ _)
        | arr xs =>
            simp only [subnodes, Finset.mem_insert] at ha
            rcases ha with ha | ha
            · subst ha
              exact subset_rfl
            · have hsub := ihl xs (by simp [jsize] at hsz; omega) a ha
              exact hsub.trans (Finset.subset_insert _ _)
        | str s =>
            simp only [subnodes, Finset.mem_singleton] at ha
            subst ha
            exact subset_rfl
        | num m =>
            simp only [subnodes, Finset.mem_singleton] at ha
            subst ha
            exact subset_rfl
        | bool b =>
            simp only [subnodes, Finset.mem_singleton] at ha
            subst ha
            exact subset_rfl
        | null =>
            simp only [subnodes, Finset.mem_singleton] at ha
            subst ha
            exact subset_rfl
      · intro xs hsz a ha
        cases xs with
        | nil => simp [subnodesList] at ha
        | cons x xs =>
            simp only [subnodesList, Finset.mem_union] at ha
            simp only [jsizeList] at hsz
            rcases ha with ha | ha
            · exact (ihj x (by omega) a ha).trans
                Finset.subset_union_left
            · exact (ihl xs (by omega) a ha).trans
                Finset.subset_union_right
      · intro kvs hsz a ha
        cases kvs with
        | nil => simp [subnodesKVs] at ha
        | cons kv kvs =>
            cases kv with
            | mk k1 v1 =>
                simp only [subnodesKVs, Finset.mem_union] at ha
                simp only [jsizeKVs] at hsz
                rcases ha with ha | ha
                · exact (ihj v1 (by omega) a ha).trans
                    Finset.subset_union_left
                · exact (ihk kvs (by omega) a ha).trans
                    Finset.subset_union_right

theorem subnodes_trans {a j : JSON} (h : a ∈ subnodes j) :
    subnodes a ⊆ subnodes j :=
  (subnodes_trans_aux (jsize j)).1 j le_rfl a h

theorem resolve_chain_mem : ∀ (parts : List String) (node : JSON)
    (kvs : List (String × JSON)), resolve_chain parts node = some kvs →
    JSON.obj kvs ∈ subnodes node := by
  intro parts
  induction parts with
  | nil =>
      intro node kvs h
      cases node with
      | obj kvs0 =>
          simp only [resolve_chain] at h
          injection h with h2
          subst h2
          exact mem_subnodes_self _
      | arr xs => exact absurd h (by simp [resolve_chain])
      | str s => exact absurd h (by simp [resolve_chain])
      | num m => exact absurd h (by simp [resolve_chain])
      | bool b => exact absurd h (by simp [resolve_chain])
      | null => exact absurd h (by simp [resolve_chain])
  | cons p ps ih =>
      intro node kvs h
      cases node with
      | obj kvs0 =>
          simp only [resolve_chain] at h
          cases hg : dget kvs0 p with
          | none => rw [hg] at h; exact absurd h (by simp)
          | some v =>
              rw [hg] at h
              have hv := ih v kvs h
              have h1 : v ∈ subnodes (JSON.obj kvs0) :=
                subnodesKVs_subset kvs0 (dget_mem_subnodesKVs hg)
              exact subnodes_trans h1 hv
      | arr xs => exact absurd h (by simp [resolve_chain])
      | str s => exact absurd h (by simp [resolve_chain])
      | num m => exact absurd h (by simp [resolve_chain])
      | bool b => exact absurd h (by simp [resolve_chain])
      | null => exact absurd h (by simp [resolve_chain])

theorem resolve_ref_mem {ref spec : JSON} {kvs : List (String × JSON)}
    (h : resolve_ref ref spec = .ok (some kvs)) :
    JSON.obj kvs ∈ subnodes spec := by
  cases ref with
  | str s =>
      simp only [resolve_ref] at h
      by_cases hs : startsHashSlash s = true
      · rw [if_pos hs] at h
        injection h with h2
        exact resolve_chain_mem _ _ _ h2
      · rw [if_neg hs] at h
        injection h with h2
        exact absurd h2 (by simp)
  | obj kvs0 => exact absurd h (by simp [resolve_ref])
  | arr xs => exact absurd h (by simp [resolve_ref])
  | num m => exact absurd h (by simp [resolve_ref])
  | bool b => exact absurd h (by simp [resolve_ref])
  | null => exact absurd h (by simp [resolve_ref])

/-- Termination measure for the `$ref`-chasing loops of op8: the number of
subnodes of the spec and the current schema not yet recorded in `seen`. -/
def refMeasure (spec : JSON) (kvs : List (String × JSON))
    (seen : List JSON) : Nat :=
  ((subnodes spec ∪ subnodesKVs kvs) \ seen.toFinset).card

theorem refMeasure_lt {spec : JSON} {kvs nkvs : List (String × JSON)}
    {seen : List JSON} {ref : JSON} (h1 : dget kvs "$ref" = some ref)
    (h2 : ref ∉ seen) (h3 : JSON.obj nkvs ∈ subnodes spec) :
    refMeasure spec nkvs (ref :: seen) < refMeasure spec kvs seen := by
  unfold refMeasure
  have hsub : subnodesKVs nkvs ⊆ subnodes spec :=
    (subnodesKVs_subset nkvs).trans (subnodes_trans h3)
  have hrefmem : ref ∈ (subnodes spec ∪ subnodesKVs kvs) \ seen.toFinset := by
    rw [Finset.mem_sdiff]
    refine ⟨Finset.mem_union_right _ (dget_mem_subnodesKVs h1), ?_⟩
    rw [List.mem_toFinset]
    exact h2
  have hss : (subnodes spec ∪ subnodesKVs nkvs) \
      (ref :: seen).toFinset ⊆
      ((subnodes spec ∪ subnodesKVs kvs) \ seen.toFinset).erase ref := by
    intro x hx
    rw [Finset.mem_sdiff] at hx
    obtain ⟨hx1, hx2⟩ := hx
    rw [List.toFinset_cons, Finset.mem_insert] at hx2
    push_neg at hx2
    rw [Finset.mem_erase, Finset.mem_sdiff]
    refine ⟨hx2.1, ?_, ?_⟩
    · rcases Finset.mem_union.mp hx1 with hx3 | hx3
      · exact Finset.mem_union_left _ hx3
      · exact Finset.mem_union_left _ (hsub hx3)
    · rw [List.mem_toFinset]
      intro hc
      exact absurd (List.mem_toFinset.mpr hc) hx2.2
  calc ((subnodes spec ∪ subnodesKVs nkvs) \ (ref :: seen).toFinset).card
      ≤ (((subnodes spec ∪ subnodesKVs kvs) \ seen.toFinset).erase
          ref).card := Finset.card_le_card hss
    _ < ((subnodes spec ∪ subnodesKVs kvs) \ seen.toFinset).card :=
        Finset.card_erase_lt_of_mem hrefmem

/-- Embedding of `_is_array_schema` (op8_multipart_array_ref.py): follow
`$ref` hops, returning False on a repeated reference or an unresolvable
one; a non-string reference raises AttributeError inside `_resolve_ref`,
an unhashable one raises TypeError at `ref in _seen`; a ref-free schema
answers `schema.get("type") == "array"`. -/
def is_array_schema (spec : JSON) (kvs : List (String × JSON))
    (seen : List JSON) : Except PyErr Bool :=
  match h1 : dget kvs "$ref" with
  | some ref =>
      if isUnhashable ref then .error .typeError
      else if h2 : ref ∈ seen then .ok false
      else
        match h3 : resolve_ref ref spec with
        | .error e => .error e
        | .ok none => .ok false
        | .ok (some nkvs) => is_array_schema spec nkvs (ref :: seen)
  | none => .ok (decide (dget kvs "type" = some (.str "array")))
termination_by refMeasure spec kvs seen
decreasing_by
  exact refMeasure_lt h1 h2 (resolve_ref_mem h3)

/-- The node built by `_inline_array` from the schema at the end of the
`$ref` chain: `{type: "array", items: <items or {}>}`, with `description`
appended when the resolved schema has one. -/
def inlineResult (tkvs : List (String × JSON)) : List (String × JSON) :=
  let base := [("type", JSON.str "array"),
    ("items", dgetD tkvs "items" (.obj []))]
  if dmem tkvs "description" then
    dset base "description" (dgetD tkvs "description" JSON.null)
  else base

/-- Embedding of `_inline_array` (op8_multipart_array_ref.py): follow the
`$ref` chain (returning the original schema on a cycle or an unresolvable
reference), then build the inline array node. -/
def inline_array (spec : JSON) (kvs : List (String × JSON))
    (seen : List JSON) (orig : List (String × JSON)) :
    Except PyErr (List (String × JSON)) :=
  match h1 : dget kvs "$ref" with
  | some ref =>
      if isUnhashable ref then .error .typeError
      else if h2 : ref ∈ seen then .ok orig
      else
        match h3 : resolve_ref ref spec with
        | .error e => .error e
        | .ok none => .ok orig
        | .ok (some nkvs) => inline_array spec nkvs (ref :: seen) orig
  | none => .ok (inlineResult kvs)
termination_by refMeasure spec kvs seen
decreasing_by
  exact refMeasure_lt h1 h2 (resolve_ref_mem h3)

/-- The property loop of `_fix_multipart_schema_properties`
(op8_multipart_array_ref.py): each dict-valued property that carries a
`$ref` resolving to an array schema is replaced by its inline form; other
properties are kept as they are.  Entries are processed in order, so an
exception raised on one property aborts before later ones are touched. -/
def fixProps (spec : JSON) : List (String × JSON) →
    Except PyErr (List (String × JSON))
  | [] => .ok []
  | (k, v) :: rest =>
      match v with
      | .obj pkvs =>
          if dmem pkvs "$ref" then
            match is_array_schema spec pkvs [] with
            | .error e => .error e
            | .ok true =>
                match inline_array spec pkvs [] pkvs with
                | .error e => .error e
                | .ok nkvs =>
                    match fixProps spec rest with
                    | .error e => .error e
                    | .ok rest2 => .ok ((k, JSON.obj nkvs) :: rest2)
            | .ok false =>
                match fixProps spec rest with
                | .error e => .error e
                | .ok rest2 => .ok ((k, v) :: rest2)
          else
            match fixProps spec rest with
            | .error e => .error e
            | .ok rest2 => .ok ((k, v) :: rest2)
      | _ =>
          match fixProps spec rest with
          | .error e => .error e
          | .ok rest2 => .ok ((k, v) :: rest2)

/-- Embedding of `_fix_multipart_schema_properties`: mutating the
`properties` dict in place is modelled by writing the processed mapping
back under the `properties` key; a missing or non-dict `properties` leaves
the schema untouched. -/
def fix_multipart_schema_properties (spec : JSON)
    (schema : List (String × JSON)) : Except PyErr (List (String × JSON)) :=
  match dget schema "properties" with
  | some (.obj props) =>
      match fixProps spec props with
      | .error e => .error e
      | .ok nprops => .ok (dset schema "properties" (.obj nprops))
  | some _ => .ok schema
  | none => .ok schema

/-- Per-entry body of the `_process_content_map` loop for a multipart
entry: resolve the `schema` node (`_resolve_schema_node`), then fix its
properties when it is a dict.  When the schema is reached through a top
level `$ref`, the Python code mutates the referenced node inside the spec;
the content entry itself is unchanged, which is what this read-only-spec
embedding returns (errors raised while fixing still propagate).  A stored
`schema: null` is what `.get` hands `_resolve_schema_node` as None, so its
None guard skips the entry exactly like an absent key. -/
def process_content_entry (spec : JSON) (cv : JSON) : Except PyErr JSON :=
  match cv with
  | .obj cvkvs =>
      match dget cvkvs "schema" with
      | none => .ok (.obj cvkvs)
      | some JSON.null => .ok (.obj cvkvs)
      | some raw =>
          match pyContains raw "$ref" with
          | .error e => .error e
          | .ok true =>
              match pySubscript raw "$ref" with
              | .error e => .error e
              | .ok r =>
                  match resolve_ref r spec with
                  | .error e => .error e
                  | .ok none => .ok (.obj cvkvs)
                  | .ok (some tkvs) =>
                      match fix_multipart_schema_properties spec tkvs with
                      | .error e => .error e
                      | .ok _ => .ok (.obj cvkvs)
          | .ok false =>
              match raw with
              | .obj skvs =>
                  match fix_multipart_schema_properties spec skvs with
                  | .error e => .error e
                  | .ok nskvs =>
                      .ok (.obj (dset cvkvs "schema" (.obj nskvs)))
              | _ => .ok (.obj cvkvs)
  | _ => .ok cv

/-- Embedding of `_process_content_map` (op8_multipart_array_ref.py): only
entries whose content-type key contains the substring `"multipart"` are
processed; every other entry is kept exactly as it is. -/
def process_content_map (spec : JSON) : List (String × JSON) →
    Except PyErr (List (String × JSON))
  | [] => .ok []
  | (ct, cv) :: rest =>
      if subStr "multipart" ct then
        match process_content_entry spec cv with
        | .error e => .error e
        | .ok cv2 =>
            match process_content_map spec rest with
            | .error e => .error e
            | .ok rest2 => .ok ((ct, cv2) :: rest2)
      else
        match process_content_map spec rest with
        | .error e => .error e
        | .ok rest2 => .ok ((ct, cv) :: rest2)

/-- The per-operation body of `fix_multipart_array_refs`:
`request_body = operation.get("requestBody", {})`, a `$ref` membership
test on it (TypeError for a scalar), resolution of a referenced request
body, and `request_body.get("content", {})` — an AttributeError when the
request body is not a dict (e.g. a string).  A content map reached through
a `$ref` lives at the reference target, so processing it leaves the
operation itself unchanged in this read-only-spec embedding. -/
def process_operation (spec : JSON) (opkvs : List (String × JSON)) :
    Except PyErr (List (String × JSON)) :=
  match dgetD opkvs "requestBody" (.obj []) with
  | .obj rbkvs =>
      if dmem rbkvs "$ref" then
        match pySubscript (.obj rbkvs) "$ref" with
        | .error e => .error e
        | .ok r =>
            match resolve_ref r spec with
            | .error e => .error e
            | .ok res =>
                match dgetD (res.getD []) "content" (.obj []) with
                | .obj ckvs =>
                    match process_content_map spec ckvs with
                    | .error e => .error e
                    | .ok _ => .ok opkvs
                | _ => .ok opkvs
      else
        match dget rbkvs "content" with
        | some (.obj ckvs) =>
            match process_content_map spec ckvs with
            | .error e => .error e
            | .ok nckvs =>
                .ok (dset opkvs "requestBody"
                  (.obj (dset rbkvs "content" (.obj nckvs))))
        | some _ => .ok opkvs
        | none => .ok opkvs
  | .arr xs =>
      match pyContains (.arr xs) "$ref" with
      | .error e => .error e
      | .ok true =>
          match pySubscript (.arr xs) "$ref" with
          | .error e => .error e
          | .ok _ => .ok opkvs
      | .ok false => .error .attrError
  | .str s =>
      if subStr "$ref" s then .error .typeError
      else .error .attrError
  | _ => .error .typeError

def method_names : List String :=
  ["get", "put", "post", "delete", "options", "head", "patch", "trace"]

/-- The method loop inside the paths loop of `fix_multipart_array_refs`:
each dict-valued operation is processed and written back. -/
def process_methods (spec : JSON) : List String →
    List (String × JSON) → Except PyErr (List (String × JSON))
  | [], pikvs => .ok pikvs
  | m :: ms, pikvs =>
      match dget pikvs m with
      | some (.obj opkvs) =>
          match process_operation spec opkvs with
          | .error e => .error e
          | .ok nop => process_methods spec ms (dset pikvs m (.obj nop))
      | some _ => process_methods spec ms pikvs
      | none => process_methods spec ms pikvs

/-- The `for path_item in paths.values()` loop: non-dict path items are
skipped. -/
def process_paths (spec : JSON) : List (String × JSON) →
    Except PyErr (List (String × JSON))
  | [] => .ok []
  | (pk, pv) :: rest =>
      match pv with
      | .obj pikvs =>
          match process_methods spec method_names pikvs with
          | .error e => .error e
          | .ok npik =>
              match process_paths spec rest with
              | .error e => .error e
              | .ok nrest => .ok ((pk, JSON.obj npik) :: nrest)
      | _ =>
          match process_paths spec rest with
          | .error e => .error e
          | .ok nrest => .ok ((pk, pv) :: nrest)

/-- The `components.requestBodies` loop of `fix_multipart_array_refs`:
each dict-valued request body with a dict `content` has its content map
processed and written back. -/
def process_request_bodies (spec : JSON) : List (String × JSON) →
    Except PyErr (List (String × JSON))
  | [] => .ok []
  | (k, v) :: rest =>
      match v with
      | .obj rbkvs =>
          match dget rbkvs "content" with
          | some (.obj ckvs) =>
              match process_content_map spec ckvs with
              | .error e => .error e
              | .ok nckvs =>
                  match process_request_bodies spec rest with
                  | .error e => .error e
                  | .ok nrest =>
                      .ok ((k, JSON.obj (dset rbkvs "content"
                        (.obj nckvs))) :: nrest)
          | some _ =>
              match process_request_bodies spec rest with
              | .error e => .error e
              | .ok nrest => .ok ((k, v) :: nrest)
          | none =>
              match process_request_bodies spec rest with
              | .error e => .error e
              | .ok nrest => .ok ((k, v) :: nrest)
      | _ =>
          match process_request_bodies spec rest with
          | .error e => .error e
          | .ok nrest => .ok ((k, v) :: nrest)

/-- Embedding of `fix_multipart_array_refs` (op8_multipart_array_ref.py).
All `$ref` resolution is performed against the input document (the Python
code mutates the spec while iterating; this embedding reconstructs the
updated `paths` and `components.requestBodies` subtrees functionally).
A non-dict `paths`, `components` or `components.requestBodies` value hits
`.values()` / `.get` on a non-dict and raises AttributeError. -/
def fix_multipart_array_refs (spec : JSON) : Except PyErr JSON :=
  match spec with
  | .obj skvs =>
      match dgetD skvs "paths" (.obj []) with
      | .obj pkvs =>
          match process_paths (.obj skvs) pkvs with
          | .error e => .error e
          | .ok npkvs =>
              let skvs1 := if dmem skvs "paths" then
                dset skvs "paths" (.obj npkvs) else skvs
              match dgetD skvs "components" (.obj []) with
              | .obj ckvs =>
                  match dgetD ckvs "requestBodies" (.obj []) with
                  | .obj rbkvs =>
                      match process_request_bodies (.obj skvs) rbkvs with
                      | .error e => .error e
                      | .ok nrb =>
                          if dmem skvs "components" ∧ dmem ckvs
                              "requestBodies" then
                            .ok (.obj (dset skvs1 "components"
                              (.obj (dset ckvs "requestBodies"
                                (.obj nrb)))))
                          else .ok (.obj skvs1)
                  | _ => .error .attrError
              | _ => .error .attrError
      | _ => .error .attrError
  | _ => .error .attrError

/-! ### Claims C3, C8, C9, C10 -/

/-- `$ref` values that are strings (or absent), at a node. -/
def isStrOrNone : Option JSON → Bool
  | some (.str _) => true
  | some _ => false
  | none => true

-- Every dict node anywhere in the tree has a string `$ref` (or none).
mutual
def strRefs : JSON → Bool
  | .obj kvs => isStrOrNone (dget kvs "$ref") && strRefsKVs kvs
  | .arr xs => strRefsList xs
  | _ => true

def strRefsList : List JSON → Bool
  | [] => true
  | x :: xs => strRefs x && strRefsList xs

def strRefsKVs : List (String × JSON) → Bool
  | [] => true
  | (_, v) :: kvs => strRefs v && strRefsKVs kvs
end

theorem strRefs_subnode_aux : ∀ n : Nat,
    (∀ j, jsize j ≤ n → strRefs j = true →
      ∀ a ∈ subnodes j, strRefs a = true) ∧
    (∀ xs, jsizeList xs ≤ n → strRefsList xs = true →
      ∀ a ∈ subnodesList xs, strRefs a = true) ∧
    (∀ kvs, jsizeKVs kvs ≤ n → strRefsKVs kvs = true →
      ∀ a ∈ subnodesKVs kvs, strRefs a = true) := by
  intro n
  induction n with
  | zero =>
      refine ⟨?_, ?_, ?_⟩
      · intro j hsz
        have := jsize_pos j
        omega
      · intro xs hsz hs a ha
        cases xs with
        | nil => simp [subnodesList] at ha
        | cons x xs =>
            simp only [jsizeList] at hsz
            have := jsize_pos x
            omega
      · intro kvs hsz hs a ha
        cases kvs with
        | nil => simp [subnodesKVs] at ha
        | cons kv kvs =>
            cases kv with
            | mk k1 v1 =>
                simp only [jsizeKVs] at hsz
                have := jsize_pos v1
                omega
  | succ n ih =>
      obtain ⟨ihj, ihl, ihk⟩ := ih
      refine ⟨?_, ?_, ?_⟩
      · intro j hsz hs a ha
        cases j with
        | obj kvs =>
            simp only [subnodes, Finset.mem_insert] at ha
            simp only [strRefs, Bool.and_eq_true] at hs
            rcases ha with ha | ha
            · subst ha
              simp [strRefs, hs.1, hs.2]
            · exact ihk kvs (by simp [jsize] at hsz; omega) hs.2 a ha
        | arr xs =>
            simp only [subnodes, Finset.mem_insert] at ha
            simp only [strRefs] at hs
            rcases ha with ha | ha
            · subst ha
              simp [strRefs, hs]
            · exact ihl xs (by simp [jsize] at hsz; omega) hs a ha
        | str s =>
            simp only [subnodes, Finset.mem_singleton] at ha
            subst ha
            rfl
        | num m =>
            simp only [subnodes, Finset.mem_singleton] at ha
            subst ha
            rfl
        | bool b =>
            simp only [subnodes, Finset.mem_singleton] at ha
            subst ha
            rfl
        | null =>
            simp only [subnodes, Finset.mem_singleton] at ha
            subst ha
            rfl
      · intro xs hsz hs a ha
        cases xs with
        | nil => simp [subnodesList] at ha
        | cons x xs =>
            simp only [subnodesList, Finset.mem_union] at ha
            simp only [strRefsList, Bool.and_eq_true] at hs
            simp only [jsizeList] at hsz
            rcases ha with ha | ha
            · exact ihj x (by omega) hs.1 a ha
            · exact ihl xs (by omega) hs.2 a ha
      · intro kvs hsz hs a ha
        cases kvs with
        | nil => simp [subnodesKVs] at ha
        | cons kv kvs =>
            cases kv with
            | mk k1 v1 =>
                simp only [subnodesKVs, Finset.mem_union] at ha
                simp only [strRefsKVs, Bool.and_eq_true] at hs
                simp only [jsizeKVs] at hsz
                rcases ha with ha | ha
                · exact ihj v1 (by omega) hs.1 a ha
                · exact ihk kvs (by omega) hs.2 a ha

theorem strRefs_subnode {j a : JSON} (hs : strRefs j = true)
    (ha : a ∈ subnodes j) : strRefs a = true :=
  (strRefs_subnode_aux (jsize j)).1 j le_rfl hs a ha

/-- A schema whose hashable `$ref` value has already been seen answers
False immediately. -/
theorem is_array_schema_seen_false (spec : JSON)
    (kvs : List (String × JSON)) (seen : List JSON) (ref : JSON)
    (h1 : dget kvs "$ref" = some ref) (h2 : isUnhashable ref = false)
    (h3 : ref ∈ seen) : is_array_schema spec kvs seen = .ok false := by
  rw [is_array_schema.eq_def]
  split
  · rename_i ref2 heq
    rw [h1] at heq
    injection heq with he
    subst he
    simp only [h2, Bool.false_eq_true, if_false]
    rw [dif_pos h3]
  · rename_i heq
    rw [h1] at heq
    exact absurd heq (by simp)

/-- When every `$ref` value in the spec and in the schema is a string,
`_is_array_schema` returns a Boolean and never raises. -/
theorem is_array_schema_no_raise (spec : JSON)
    (kvs : List (String × JSON)) (seen : List JSON) :
    strRefs spec = true → strRefs (.obj kvs) = true →
    ∃ b, is_array_schema spec kvs seen = .ok b := by
  induction kvs, seen using is_array_schema.induct with
  | spec => exact spec
  | case1 kvs seen ref h1 hu =>
      intro hsp hsc
      simp only [strRefs, Bool.and_eq_true, h1] at hsc
      obtain ⟨hso, -⟩ := hsc
      cases ref <;> simp [isStrOrNone, isUnhashable] at hso hu
  | case2 kvs seen ref h1 hu h2 =>
      intro hsp hsc
      exact ⟨false, is_array_schema_seen_false spec kvs seen ref h1
        (by simp [hu]) h2⟩
  | case3 kvs seen ref h1 hu h2 e h3 =>
      intro hsp hsc
      simp only [strRefs, Bool.and_eq_true, h1] at hsc
      obtain ⟨hso, -⟩ := hsc
      cases ref with
      | str s =>
          simp only [resolve_ref] at h3
          by_cases hss : startsHashSlash s = true
          · rw [if_pos hss] at h3
            exact absurd h3 (by simp)
          · rw [if_neg hss] at h3
            exact absurd h3 (by simp)
      | obj o => simp [isStrOrNone] at hso
      | arr o => simp [isStrOrNone] at hso
      | num o => simp [isStrOrNone] at hso
      | bool o => simp [isStrOrNone] at hso
      | null => simp [isStrOrNone] at hso
  | case4 kvs seen ref h1 hu h2 h3 =>
      intro hsp hsc
      refine ⟨false, ?_⟩
      rw [is_array_schema.eq_def]
      split
      · rename_i ref2 heq
        rw [h1] at heq
        injection heq with he
        subst he
        simp only [Bool.not_eq_true] at hu
        simp only [hu, Bool.false_eq_true, if_false]
        rw [dif_neg h2, h3]
      · rename_i heq
        rw [h1] at heq
        exact absurd heq (by simp)
  | case5 kvs seen ref h1 hu h2 nkvs h3 ih =>
      intro hsp hsc
      have hnk : strRefs (.obj nkvs) = true :=
        strRefs_subnode hsp (resolve_ref_mem h3)
      obtain ⟨b, hb⟩ := ih hsp hnk
      refine ⟨b, ?_⟩
      rw [is_array_schema.eq_def]
      split
      · rename_i ref2 heq
        rw [h1] at heq
        injection heq with he
        subst he
        simp only [Bool.not_eq_true] at hu
        simp only [hu, Bool.false_eq_true, if_false]
        rw [dif_neg h2, h3]
        exact hb
      · rename_i heq
        rw [h1] at heq
        exact absurd heq (by simp)
  | case6 kvs seen h1 =>
      intro hsp hsc
      rw [is_array_schema.eq_def]
      split
      · rename_i ref2 heq
        rw [h1] at heq
        exact absurd heq (by simp)
      · exact ⟨_, rfl⟩

/-- A two-schema reference cycle, `A → B → A`. -/
def c9_cycle_spec : JSON :=
  .obj [("components", .obj [("schemas", .obj [
    ("A", .obj [("$ref", .str "#/components/schemas/B")]),
    ("B", .obj [("$ref", .str "#/components/schemas/A")])])])]

/-- C9 (corrected): `_is_array_schema` terminates on every input, follows
one `$ref` hop per recursive call accumulating visited references, and
returns False the moment a repeated reference is seen — a schema whose
`$ref` chain cycles back to itself yields False, as on the concrete
`A → B → A` cycle.  When every `$ref` value in the spec and the schema is
a string it also never raises; but it is not exception-free in general (a
non-string `$ref` raises, see the counterexample). -/
theorem c9_is_array_cycle_safe (spec : JSON) (kvs : List (String × JSON))
    (seen : List JSON) (ref : JSON) (h1 : dget kvs "$ref" = some ref)
    (h2 : isUnhashable ref = false) (h3 : ref ∈ seen) :
    is_array_schema spec kvs seen = .ok false ∧
    (∀ kvs2 seen2, strRefs spec = true → strRefs (.obj kvs2) = true →
      ∃ b, is_array_schema spec kvs2 seen2 = .ok b) ∧
    is_array_schema c9_cycle_spec
      [("$ref", .str "#/components/schemas/A")] [] = .ok false := by
  refine ⟨is_array_schema_seen_false spec kvs seen ref h1 h2 h3,
    fun kvs2 seen2 hsp hsc =>
      is_array_schema_no_raise spec kvs2 seen2 hsp hsc, ?_⟩
  simp [is_array_schema.eq_def, c9_cycle_spec, resolve_ref,
    startsHashSlash, pyLstripHashSlash, pySplitSlash, splitSlashAux,
    resolve_chain, dget, dmem, isUnhashable, dgetD]

/-- C9 counterexample: `_is_array_schema` is not raise-free on every tree —
a schema whose `$ref` value is the number 5 reaches
`_resolve_ref(5, spec)`, and `5 .startswith` raises AttributeError. -/
theorem c9_counterexample_nonstring_ref :
    is_array_schema (.obj []) [("$ref", .num 5)] [] =
      .error .attrError := by
  simp [is_array_schema.eq_def, resolve_ref, dget, isUnhashable]

theorem c9_witness :
    is_array_schema (.obj []) [("$ref", .str "#/x")] [JSON.str "#/x"] =
      .ok false ∧
    is_array_schema c9_cycle_spec
      [("$ref", .str "#/components/schemas/A")] [] = .ok false :=
  have h := c9_is_array_cycle_safe (.obj []) [("$ref", .str "#/x")]
    [JSON.str "#/x"] (.str "#/x") (by decide) (by decide) (by decide)
  ⟨h.1, h.2.2⟩

/-- C10: for every reference string beginning with `#/`, `_resolve_ref`
follows the stripped, slash-split path through the spec and reports the
target only when it is a mapping: a missing path yields None, and a path
that fully exists but ends at a sequence or scalar node also yields None
rather than the node. -/
theorem c10_resolve_ref_requires_mapping (s : String) (spec : JSON)
    (hs : startsHashSlash s = true) :
    (resolve_ref (.str s) spec =
      .ok (match getPath (pySplitSlash (pyLstripHashSlash s)) spec with
           | some (.obj kvs) => some kvs
           | _ => none)) ∧
    (getPath (pySplitSlash (pyLstripHashSlash s)) spec = none →
      resolve_ref (.str s) spec = .ok none) ∧
    (∀ v, getPath (pySplitSlash (pyLstripHashSlash s)) spec = some v →
      (∀ kvs, v ≠ .obj kvs) → resolve_ref (.str s) spec = .ok none) ∧
    (∀ kvs, getPath (pySplitSlash (pyLstripHashSlash s)) spec =
      some (.obj kvs) → resolve_ref (.str s) spec = .ok (some kvs)) := by
  have hmain : resolve_ref (.str s) spec =
      .ok (match getPath (pySplitSlash (pyLstripHashSlash s)) spec with
           | some (.obj kvs) => some kvs
           | _ => none) := by
    simp only [resolve_ref]
    rw [if_pos hs, resolve_chain_getPath]
  refine ⟨hmain, ?_, ?_, ?_⟩
  · intro hnone
    rw [hmain, hnone]
  · intro v hv hno
    rw [hmain, hv]
    cases v with
    | obj kvs => exact absurd rfl (hno kvs)
    | arr xs => rfl
    | str t => rfl
    | num m => rfl
    | bool b => rfl
    | null => rfl
  · intro kvs hk
    rw [hmain, hk]

theorem c10_witness :
    getPath (pySplitSlash (pyLstripHashSlash "#/a"))
      (.obj [("a", .arr [])]) = some (.arr []) ∧
    resolve_ref (.str "#/a") (.obj [("a", .arr [])]) = .ok none :=
  ⟨by decide,
    (c10_resolve_ref_requires_mapping "#/a" (.obj [("a", .arr [])])
      (by decide)).2.2.1 (.arr []) (by decide)
      (fun kvs h => JSON.noConfusion h)⟩

/-- C3 (code bug): `fix_multipart_array_refs` raises on a malformed
document — a `requestBody` that is a string slips past the `"$ref" in
request_body` substring test and hits `request_body.get("content", {})`,
an AttributeError on `str`. -/
theorem c3_request_body_string_raises :
    fix_multipart_array_refs
      (.obj [("paths", .obj [("/p", .obj [("get",
        .obj [("requestBody", .str "hello")])])])]) =
      .error .attrError := by
  decide

theorem is_array_schema_ref (spec : JSON) {kvs : List (String × JSON)}
    {ref : JSON} (h1 : dget kvs "$ref" = some ref) (seen : List JSON) :
    is_array_schema spec kvs seen =
      (if isUnhashable ref then .error .typeError
       else if ref ∈ seen then .ok false
       else
         match resolve_ref ref spec with
         | .error e => .error e
         | .ok none => .ok false
         | .ok (some nkvs) => is_array_schema spec nkvs (ref :: seen)) := by
  rw [is_array_schema.eq_def]
  split
  · rename_i ref2 heq
    rw [h1] at heq
    injection heq with he
    subst he
    by_cases hu : isUnhashable ref = true
    · rw [if_pos hu, if_pos hu]
    · rw [if_neg hu, if_neg hu]
      by_cases hs : ref ∈ seen
      · rw [dif_pos hs, if_pos hs]
      · rw [dif_neg hs, if_neg hs]
        split <;> rename_i h3 <;> rw [h3]
  · rename_i heq
    rw [h1] at heq
    exact absurd heq (by simp)

theorem is_array_schema_noref (spec : JSON) {kvs : List (String × JSON)}
    (h1 : dget kvs "$ref" = none) (seen : List JSON) :
    is_array_schema spec kvs seen =
      .ok (decide (dget kvs "type" = some (.str "array"))) := by
  rw [is_array_schema.eq_def]
  split
  · rename_i ref2 heq
    rw [h1] at heq
    exact absurd heq (by simp)
  · rfl

theorem inline_array_ref (spec : JSON) {kvs : List (String × JSON)}
    {ref : JSON} (h1 : dget kvs "$ref" = some ref) (seen : List JSON)
    (orig : List (String × JSON)) :
    inline_array spec kvs seen orig =
      (if isUnhashable ref then .error .typeError
       else if ref ∈ seen then .ok orig
       else
         match resolve_ref ref spec with
         | .error e => .error e
         | .ok none => .ok orig
         | .ok (some nkvs) => inline_array spec nkvs (ref :: seen) orig) := by
  rw [inline_array.eq_def]
  split
  · rename_i ref2 heq
    rw [h1] at heq
    injection heq with he
    subst he
    by_cases hu : isUnhashable ref = true
    · rw [if_pos hu, if_pos hu]
    · rw [if_neg hu, if_neg hu]
      by_cases hs : ref ∈ seen
      · rw [dif_pos hs, if_pos hs]
      · rw [dif_neg hs, if_neg hs]
        split <;> rename_i h3 <;> rw [h3]
  · rename_i heq
    rw [h1] at heq
    exact absurd heq (by simp)

theorem inline_array_noref (spec : JSON) {kvs : List (String × JSON)}
    (h1 : dget kvs "$ref" = none) (seen : List JSON)
    (orig : List (String × JSON)) :
    inline_array spec kvs seen orig = .ok (inlineResult kvs) := by
  rw [inline_array.eq_def]
  split
  · rename_i ref2 heq
    rw [h1] at heq
    exact absurd heq (by simp)
  · rfl

/-- When `_is_array_schema` answers True, `_inline_array` follows the same
`$ref` chain to its ref-free end `tkvs` — an actual `type: "array"`
schema — and returns the inline node built from it. -/
theorem inline_array_of_is_array (spec : JSON) :
    ∀ (kvs : List (String × JSON)) (seen : List JSON),
      is_array_schema spec kvs seen = .ok true →
      ∀ orig, ∃ tkvs,
        inline_array spec kvs seen orig = .ok (inlineResult tkvs) ∧
        dget tkvs "$ref" = none ∧
        dget tkvs "type" = some (.str "array") := by
  intro kvs seen
  induction kvs, seen using is_array_schema.induct with
  | spec => exact spec
  | case1 kvs seen ref h1 hu =>
      intro h orig
      rw [is_array_schema_ref spec h1, if_pos hu] at h
      exact absurd h (by simp)
  | case2 kvs seen ref h1 hu h2 =>
      intro h orig
      rw [is_array_schema_ref spec h1, if_neg hu, if_pos h2] at h
      exact absurd h (by simp)
  | case3 kvs seen ref h1 hu h2 e h3 =>
      intro h orig
      rw [is_array_schema_ref spec h1, if_neg hu, if_neg h2, h3] at h
      exact absurd h (by simp)
  | case4 kvs seen ref h1 hu h2 h3 =>
      intro h orig
      rw [is_array_schema_ref spec h1, if_neg hu, if_neg h2, h3] at h
      exact absurd h (by simp)
  | case5 kvs seen ref h1 hu h2 nkvs h3 ih =>
      intro h orig
      rw [is_array_schema_ref spec h1, if_neg hu, if_neg h2, h3] at h
      obtain ⟨tkvs, hi, href, htype⟩ := ih h orig
      refine ⟨tkvs, ?_, href, htype⟩
      rw [inline_array_ref spec h1 seen orig, if_neg hu, if_neg h2, h3]
      exact hi
  | case6 kvs seen h1 =>
      intro h orig
      rw [is_array_schema_noref spec h1 seen] at h
      injection h with h2
      rw [decide_eq_true_eq] at h2
      exact ⟨kvs, inline_array_noref spec h1 seen orig, h1, h2⟩

/-- The property loop of `_fix_multipart_schema_properties`, entry by
entry: keys are kept; a dict property carrying a `$ref` that resolves to
an array schema is replaced by its `_inline_array` result; every other
property (no `$ref`, not resolving to an array, or not a dict) is
returned exactly as it was. -/
theorem fixProps_entries (spec : JSON) :
    ∀ (props props2 : List (String × JSON)),
      fixProps spec props = .ok props2 →
      List.Forall₂ (fun a b => a.1 = b.1 ∧
        (∀ pkvs, a.2 = JSON.obj pkvs → dmem pkvs "$ref" = true →
          is_array_schema spec pkvs [] = .ok true →
          ∃ nkvs, inline_array spec pkvs [] pkvs = .ok nkvs ∧
            b.2 = JSON.obj nkvs) ∧
        (∀ pkvs, a.2 = JSON.obj pkvs → dmem pkvs "$ref" = true →
          is_array_schema spec pkvs [] = .ok false → b = a) ∧
        (∀ pkvs, a.2 = JSON.obj pkvs → dmem pkvs "$ref" = false → b = a) ∧
        ((∀ pkvs, a.2 ≠ JSON.obj pkvs) → b = a)) props props2 := by
  intro props
  induction props with
  | nil =>
      intro props2 h
      simp only [fixProps] at h
      injection h with h2
      subst h2
      exact List.Forall₂.nil
  | cons a rest ih =>
      intro props2 h
      cases a with
      | mk k v =>
          cases v with
          | obj pkvs =>
              rw [fixProps] at h
              by_cases hm : dmem pkvs "$ref" = true
              · rw [if_pos hm] at h
                cases hia : is_array_schema spec pkvs [] with
                | error e => rw [hia] at h; exact absurd h (by simp)
                | ok bv =>
                    rw [hia] at h
                    cases bv with
                    | true =>
                        simp only [] at h
                        cases hin : inline_array spec pkvs [] pkvs with
                        | error e =>
                            rw [hin] at h
                            exact absurd h (by simp)
                        | ok nkvs =>
                            rw [hin] at h
                            cases hr : fixProps spec rest with
                            | error e =>
                                rw [hr] at h
                                exact absurd h (by simp)
                            | ok rest2 =>
                                rw [hr] at h
                                injection h with h2
                                subst h2
                                refine List.Forall₂.cons
                                  ⟨rfl, ?_, ?_, ?_, ?_⟩ (ih rest2 hr)
                                · intro pkvs2 hpe hm2 hia2
                                  injection hpe with hpe2
                                  subst hpe2
                                  exact ⟨nkvs, hin, rfl⟩
                                · intro pkvs2 hpe hm2 hia2
                                  injection hpe with hpe2
                                  subst hpe2
                                  rw [hia] at hia2
                                  exact absurd hia2 (by simp)
                                · intro pkvs2 hpe hm2
                                  injection hpe with hpe2
                                  subst hpe2
                                  rw [hm] at hm2
                                  exact absurd hm2 (by simp)
                                · intro hno
                                  exact absurd rfl (hno pkvs)
                    | false =>
                        simp only [] at h
                        cases hr : fixProps spec rest with
                        | error e => rw [hr] at h; exact absurd h (by simp)
                        | ok rest2 =>
                            rw [hr] at h
                            injection h with h2
                            subst h2
                            refine List.Forall₂.cons
                              ⟨rfl, ?_, ?_, ?_, ?_⟩ (ih rest2 hr)
                            · intro pkvs2 hpe hm2 hia2
                              injection hpe with hpe2
                              subst hpe2
                              rw [hia] at hia2
                              exact absurd hia2 (by simp)
                            · intro pkvs2 hpe hm2 hia2
                              rfl
                            · intro pkvs2 hpe hm2
                              rfl
                            · intro hno
                              rfl
              · rw [if_neg hm] at h
                cases hr : fixProps spec rest with
                | error e => rw [hr] at h; exact absurd h (by simp)
                | ok rest2 =>
                    rw [hr] at h
                    injection h with h2
                    subst h2
                    refine List.Forall₂.cons
                      ⟨rfl, ?_, ?_, ?_, ?_⟩ (ih rest2 hr)
                    · intro pkvs2 hpe hm2 hia2
                      injection hpe with hpe2
                      subst hpe2
                      exact absurd hm2 hm
                    · intro pkvs2 hpe hm2 hia2
                      rfl
                    · intro pkvs2 hpe hm2
                      rfl
                    · intro hno
                      rfl
          | arr xs =>
              rw [fixProps] at h
              case x_2 => exact fun kvs hcc => JSON.noConfusion hcc
              cases hr : fixProps spec rest with
              | error e => rw [hr] at h; exact absurd h (by simp)
              | ok rest2 =>
                  rw [hr] at h
                  injection h with h2
                  subst h2
                  refine List.Forall₂.cons ⟨rfl, ?_, ?_, ?_, ?_⟩
                    (ih rest2 hr)
                  · intro pkvs2 hpe
                    exact absurd hpe (by simp)
                  · intro pkvs2 hpe
                    exact absurd hpe (by simp)
                  · intro pkvs2 hpe
                    exact absurd hpe (by simp)
                  · intro hno
                    rfl
          | str sv =>
              rw [fixProps] at h
              case x_2 => exact fun kvs hcc => JSON.noConfusion hcc
              cases hr : fixProps spec rest with
              | error e => rw [hr] at h; exact absurd h (by simp)
              | ok rest2 =>
                  rw [hr] at h
                  injection h with h2
                  subst h2
                  refine List.Forall₂.cons ⟨rfl, ?_, ?_, ?_, ?_⟩
                    (ih rest2 hr)
                  · intro pkvs2 hpe
                    exact absurd hpe (by simp)
                  · intro pkvs2 hpe
                    exact absurd hpe (by simp)
                  · intro pkvs2 hpe
                    exact absurd hpe (by simp)
                  · intro hno
                    rfl
          | num nv =>
              rw [fixProps] at h
              case x_2 => exact fun kvs hcc => JSON.noConfusion hcc
              cases hr : fixProps spec rest with
              | error e => rw [hr] at h; exact absurd h (by simp)
              | ok rest2 =>
                  rw [hr] at h
                  injection h with h2
                  subst h2
                  refine List.Forall₂.cons ⟨rfl, ?_, ?_, ?_, ?_⟩
                    (ih rest2 hr)
                  · intro pkvs2 hpe
                    exact absurd hpe (by simp)
                  · intro pkvs2 hpe
                    exact absurd hpe (by simp)
                  · intro pkvs2 hpe
                    exact absurd hpe (by simp)
                  · intro hno
                    rfl
          | bool bv =>
              rw [fixProps] at h
              case x_2 => exact fun kvs hcc => JSON.noConfusion hcc
              cases hr : fixProps spec rest with
              | error e => rw [hr] at h; exact absurd h (by simp)
              | ok rest2 =>
                  rw [hr] at h
                  injection h with h2
                  subst h2
                  refine List.Forall₂.cons ⟨rfl, ?_, ?_, ?_, ?_⟩
                    (ih rest2 hr)
                  · intro pkvs2 hpe
                    exact absurd hpe (by simp)
                  · intro pkvs2 hpe
                    exact absurd hpe (by simp)
                  · intro pkvs2 hpe
                    exact absurd hpe (by simp)
                  · intro hno
                    rfl
          | null =>
              rw [fixProps] at h
              case x_2 => exact fun kvs hcc => JSON.noConfusion hcc
              cases hr : fixProps spec rest with
              | error e => rw [hr] at h; exact absurd h (by simp)
              | ok rest2 =>
                  rw [hr] at h
                  injection h with h2
                  subst h2
                  refine List.Forall₂.cons ⟨rfl, ?_, ?_, ?_, ?_⟩
                    (ih rest2 hr)
                  · intro pkvs2 hpe
                    exact absurd hpe (by simp)
                  · intro pkvs2 hpe
                    exact absurd hpe (by simp)
                  · intro pkvs2 hpe
                    exact absurd hpe (by simp)
                  · intro hno
                    rfl

/-- Key preservation and non-multipart identity through
`_process_content_map`: the result pairs up with the input entry by entry,
keys unchanged, and every entry whose content-type key does not contain
`"multipart"` is returned exactly as it was. -/
theorem process_content_map_entries (spec : JSON)
    (content content2 : List (String × JSON))
    (h : process_content_map spec content = .ok content2) :
    List.Forall₂ (fun a b => a.1 = b.1 ∧
      (subStr "multipart" a.1 = false → b = a)) content content2 := by
  induction content generalizing content2 with
  | nil =>
      simp only [process_content_map] at h
      injection h with h2
      subst h2
      exact List.Forall₂.nil
  | cons a rest ih =>
      cases a with
      | mk ct cv =>
          rw [process_content_map] at h
          by_cases hm : subStr "multipart" ct = true
          · rw [if_pos hm] at h
            cases he : process_content_entry spec cv with
            | error e => rw [he] at h; exact absurd h (by simp)
            | ok cv2 =>
                rw [he] at h
                cases hr : process_content_map spec rest with
                | error e => rw [hr] at h; exact absurd h (by simp)
                | ok rest2 =>
                    rw [hr] at h
                    injection h with h2
                    subst h2
                    refine List.Forall₂.cons ⟨rfl, ?_⟩ (ih rest2 hr)
                    intro hf
                    exact absurd (hm.symm.trans hf) (by decide)
          · rw [if_neg hm] at h
            cases hr : process_content_map spec rest with
            | error e => rw [hr] at h; exact absurd h (by simp)
            | ok rest2 =>
                rw [hr] at h
                injection h with h2
                subst h2
                exact List.Forall₂.cons ⟨rfl, fun _ => rfl⟩ (ih rest2 hr)

/-- Scenario E spec: `Tags` is an array schema with items and a
description. -/
def c8_spec : JSON :=
  .obj [("components", .obj [("schemas", .obj [
    ("Tags", .obj [("type", .str "array"),
      ("items", .obj [("type", .str "string")]),
      ("description", .str "d")])])])]

/-- Scenario E content map: a multipart entry and an `application/json`
entry with the identical `$ref`-to-array property. -/
def c8_content : List (String × JSON) :=
  [("multipart/form-data", .obj [("schema", .obj [("properties", .obj [
     ("tags", .obj [("$ref", .str "#/components/schemas/Tags")])])])]),
   ("application/json", .obj [("schema", .obj [("properties", .obj [
     ("tags", .obj [("$ref", .str "#/components/schemas/Tags")])])])])]

/-- Scenario E expected result: the multipart property inlined to
`{type: array, items, description}`, the `application/json` entry
untouched. -/
def c8_out : List (String × JSON) :=
  [("multipart/form-data", .obj [("schema", .obj [("properties", .obj [
     ("tags", .obj [("type", .str "array"),
       ("items", .obj [("type", .str "string")]),
       ("description", .str "d")])])])]),
   ("application/json", .obj [("schema", .obj [("properties", .obj [
     ("tags", .obj [("$ref", .str "#/components/schemas/Tags")])])])])]

/-- Scenario E as a full document: the content map sits under
`paths./p.post.requestBody.content` and `Tags` under
`components.schemas`. -/
def c8_doc : JSON :=
  .obj [("paths", .obj [("/p", .obj [("post", .obj [("requestBody",
      .obj [("content", .obj c8_content)])])])]),
    ("components", .obj [("schemas", .obj [
      ("Tags", .obj [("type", .str "array"),
        ("items", .obj [("type", .str "string")]),
        ("description", .str "d")])])])]

def c8_doc_out : JSON :=
  .obj [("paths", .obj [("/p", .obj [("post", .obj [("requestBody",
      .obj [("content", .obj c8_out)])])])]),
    ("components", .obj [("schemas", .obj [
      ("Tags", .obj [("type", .str "array"),
        ("items", .obj [("type", .str "string")]),
        ("description", .str "d")])])])]

/-- C8: `_process_content_map` keeps every content entry's key and returns
every entry whose content-type key does not contain the substring
`"multipart"` exactly as it was (even with the identical defect pattern).
In every multipart entry with a dict schema and dict properties, the
processed entry carries the properties rewritten by the property loop,
which replaces every dict property whose `$ref` resolves to an array
schema by its `_inline_array` result — the inline node
`{type: "array", items, description?}` built from the ref-free end of the
chain — and returns every other property untouched.  On Scenario E the
multipart `$ref`-to-array property is inlined while the identical
`application/json` entry is untouched, both on the content map alone and
through `fix_multipart_array_refs` on a full document. -/
theorem c8_multipart_entries_only (spec : JSON)
    (content content2 : List (String × JSON))
    (h : process_content_map spec content = .ok content2) :
    List.Forall₂ (fun a b => a.1 = b.1 ∧
      (subStr "multipart" a.1 = false → b = a)) content content2 ∧
    (∀ (cvkvs skvs props nprops : List (String × JSON)),
      dget cvkvs "schema" = some (.obj skvs) →
      dmem skvs "$ref" = false →
      dget skvs "properties" = some (.obj props) →
      fixProps spec props = .ok nprops →
      process_content_entry spec (.obj cvkvs) =
        .ok (.obj (dset cvkvs "schema"
          (.obj (dset skvs "properties" (.obj nprops)))))) ∧
    (∀ (props props2 : List (String × JSON)),
      fixProps spec props = .ok props2 →
      List.Forall₂ (fun a b => a.1 = b.1 ∧
        (∀ pkvs, a.2 = JSON.obj pkvs → dmem pkvs "$ref" = true →
          is_array_schema spec pkvs [] = .ok true →
          ∃ nkvs, inline_array spec pkvs [] pkvs = .ok nkvs ∧
            b.2 = JSON.obj nkvs) ∧
        (∀ pkvs, a.2 = JSON.obj pkvs → dmem pkvs "$ref" = true →
          is_array_schema spec pkvs [] = .ok false → b = a) ∧
        (∀ pkvs, a.2 = JSON.obj pkvs → dmem pkvs "$ref" = false → b = a) ∧
        ((∀ pkvs, a.2 ≠ JSON.obj pkvs) → b = a)) props props2) ∧
    (∀ (pkvs : List (String × JSON)) (seen : List JSON)
      (orig : List (String × JSON)),
      is_array_schema spec pkvs seen = .ok true →
      ∃ tkvs, inline_array spec pkvs seen orig = .ok (inlineResult tkvs) ∧
        dget tkvs "$ref" = none ∧
        dget tkvs "type" = some (.str "array")) ∧
    process_content_map c8_spec c8_content = .ok c8_out ∧
    fix_multipart_array_refs c8_doc = .ok c8_doc_out := by
  refine ⟨process_content_map_entries spec content content2 h, ?_,
    fun props props2 hf => fixProps_entries spec props props2 hf,
    fun pkvs seen orig hia =>
      inline_array_of_is_array spec pkvs seen hia orig, ?_, ?_⟩
  · intro cvkvs skvs props nprops hs href hp hfp
    simp only [process_content_entry, hs, pyContains, href,
      fix_multipart_schema_properties, hp, hfp]
  · simp [process_content_map, c8_content, c8_out, c8_spec, subStr,
      process_content_entry, pyContains, pySubscript, dget, dmem, dgetD,
      dset, fix_multipart_schema_properties, fixProps, inlineResult,
      is_array_schema.eq_def, inline_array.eq_def, resolve_ref,
      startsHashSlash, pyLstripHashSlash, pySplitSlash, splitSlashAux,
      resolve_chain, isUnhashable]
  · simp [fix_multipart_array_refs, c8_doc, c8_doc_out, c8_content,
      c8_out, c8_spec, process_paths, process_methods, method_names,
      process_operation, process_request_bodies, process_content_map,
      process_content_entry, pyContains, pySubscript, dget, dmem, dgetD,
      dset, fix_multipart_schema_properties, fixProps, inlineResult,
      is_array_schema.eq_def, inline_array.eq_def, resolve_ref,
      startsHashSlash, pyLstripHashSlash, pySplitSlash, splitSlashAux,
      resolve_chain, isUnhashable, subStr]

theorem c8_witness :
    process_content_map c8_spec c8_content = .ok c8_out ∧
    List.Forall₂ (fun a b => a.1 = b.1 ∧
      (subStr "multipart" a.1 = false → b = a)) c8_content c8_out :=
  have H : process_content_map c8_spec c8_content = .ok c8_out :=
    (c8_multipart_entries_only c8_spec [] [] rfl).2.2.2.2.1
  ⟨H, (c8_multipart_entries_only c8_spec c8_content c8_out H).1⟩
